import Mathlib

/-!
Verification development for the tiered royalty-allocation engine
(`royalties.py`): a progressive royalty scale (`Step` list), the stateful
allocator `RoyaltyStack` (`push` / `pop` / `reset`), scale validation
(`progression_is_valid`, `Right`), and the ledger layer (`Statement`,
`ReportItem`, `Agreement.apply_statements`) over exact decimal arithmetic.

Machine integers in the source are Python's unbounded `int`, embedded as
`Int`.  The generators returned by `push` / `pop` are embedded as eagerly
materialized lists; a call that would raise `IndexError` in the source
(rate-index lookup out of range) is embedded as `none`, so `some` results
correspond exactly to calls whose result sequence can be fully consumed
without a runtime error.
-/

namespace Royalties

/-- One step of the royalty progression (source: `Step`, a NamedTuple with
integer fields `rate` and `limit`). -/
structure Step where
  rate : Int
  limit : Int
deriving DecidableEq, Repr

/-- Default step used for out-of-range list reads (never reached on the
in-range indices the definitions below use). -/
def dStep : Step := ⟨0, 0⟩

/-- Source: `progression_is_valid`.  The loop checks, per index `i`:
first step (`i == 0`): `rate` and `limit` nonnegative; last step
(`i == len-1`, only tested when `i ≠ 0`): `rate` strictly above the previous
rate and `limit == 0`; middle steps: `rate` and `limit` strictly above the
previous ones.  Returns `False` on the first violation, else `True`. -/
def progression_is_valid (p : List Step) : Bool :=
  (List.range p.length).all fun i =>
    if i = 0 then
      !((p.getD i dStep).rate < 0 ∨ (p.getD i dStep).limit < 0 : Bool)
    else if i = p.length - 1 then
      !((p.getD i dStep).rate ≤ (p.getD (i - 1) dStep).rate ∨
        (p.getD i dStep).limit ≠ 0 : Bool)
    else
      !((p.getD i dStep).rate ≤ (p.getD (i - 1) dStep).rate ∨
        (p.getD i dStep).limit ≤ (p.getD (i - 1) dStep).limit : Bool)

/-- Per-tier band widths, as precomputed by `RoyaltyStack.__init__` into
`self._limits`: for `i == 0` or a step with `limit == 0` (the unbounded
sentinel) the width is the step's own `limit`; otherwise it is
`limit[i] - limit[i-1]`. -/
def initLimits (p : List Step) : List Int :=
  (List.range p.length).map fun i =>
    if i = 0 ∨ (p.getD i dStep).limit = 0 then (p.getD i dStep).limit
    else (p.getD i dStep).limit - (p.getD (i - 1) dStep).limit

/-- The state of a `RoyaltyStack` object.  In the source `_limits` and
`_cursor` are dicts keyed by tier *rate*; every progression accepted by
`progression_is_valid` has pairwise-distinct rates (they strictly increase),
so keying by rate coincides with keying by tier index and both dicts are
embedded as index-aligned lists.  `cursor` is the per-tier attribution map
(`self._cursor`), `rate_index` the active-tier index (`self._rate_index`). -/
structure RoyaltyStack where
  rates : List Int
  limits : List Int
  rate_index : Nat
  cursor : List Int
deriving DecidableEq, Repr

/-- Source: `RoyaltyStack.__init__`: stores the per-step rates, the derived
per-tier widths, rate index 0, and an all-zero attribution map. -/
def RoyaltyStack.init (p : List Step) : RoyaltyStack :=
  { rates := p.map Step.rate
    limits := initLimits p
    rate_index := 0
    cursor := List.replicate p.length 0 }

/-- The loop body of `RoyaltyStack.push`, with `fuel` bounding the number of
iterations (the loop runs at most `rates.length + 1` iterations before either
terminating or raising `IndexError`, embedded as `none`; `push` below supplies
that much fuel, so `none` coincides with the source raising). -/
def pushAux (fuel : Nat) (s : RoyaltyStack) (copies : Int) :
    Option (List (Int × Int) × RoyaltyStack) :=
  if copies ≤ 0 then some ([], s)
  else
    match fuel with
    | 0 => none
    | Nat.succ fuel =>
      match s.rates.get? s.rate_index with
      | none => none
      | some cr =>
        if s.limits.getD s.rate_index 0 = 0 ∨
            s.cursor.getD s.rate_index 0 + copies ≤ s.limits.getD s.rate_index 0 then
          some ([(copies, cr)],
            { s with cursor :=
                s.cursor.set s.rate_index (s.cursor.getD s.rate_index 0 + copies) })
        else
          match pushAux fuel
              { s with
                rate_index := s.rate_index + 1
                cursor := s.cursor.set s.rate_index (s.limits.getD s.rate_index 0) }
              (copies - (s.limits.getD s.rate_index 0 - s.cursor.getD s.rate_index 0)) with
          | none => none
          | some (out, s₂) =>
            some ((s.limits.getD s.rate_index 0 - s.cursor.getD s.rate_index 0, cr) :: out, s₂)

/-- The loop body of `RoyaltyStack.pop`, fueled like `pushAux`. -/
def popAux (fuel : Nat) (s : RoyaltyStack) (copies : Int) :
    Option (List (Int × Int) × RoyaltyStack) :=
  if copies ≤ 0 then some ([], s)
  else
    match fuel with
    | 0 => none
    | Nat.succ fuel =>
      match s.rates.get? s.rate_index with
      | none => none
      | some cr =>
        if s.rate_index = 0 ∨ 0 ≤ s.cursor.getD s.rate_index 0 - copies then
          some ([(-copies, cr)],
            { s with cursor :=
                s.cursor.set s.rate_index (s.cursor.getD s.rate_index 0 - copies) })
        else
          match popAux fuel
              { s with
                rate_index := s.rate_index - 1
                cursor := s.cursor.set s.rate_index 0 }
              (copies - s.cursor.getD s.rate_index 0) with
          | none => none
          | some (out, s₂) =>
            some ((-(s.cursor.getD s.rate_index 0), cr) :: out, s₂)

/-- Source: `RoyaltyStack.push` (adds positive sales; yields
`(copies, rate)` adjustments). -/
def RoyaltyStack.push (s : RoyaltyStack) (copies : Int) :
    Option (List (Int × Int) × RoyaltyStack) :=
  pushAux (s.rates.length + 1) s copies

/-- Source: `RoyaltyStack.pop` (removes copies; yields negative
`(copies, rate)` adjustments). -/
def RoyaltyStack.pop (s : RoyaltyStack) (copies : Int) :
    Option (List (Int × Int) × RoyaltyStack) :=
  popAux (s.rates.length + 1) s copies

/-- Source: `RoyaltyStack.reset`: rate index back to 0 and a fresh all-zero
attribution map (`_init_cursor` builds one entry per progression step). -/
def RoyaltyStack.reset (s : RoyaltyStack) : RoyaltyStack :=
  { s with rate_index := 0, cursor := List.replicate s.rates.length 0 }

/-- Source: `Right._get_iterator` — the spec's `allocate`: negative deltas go
to `pop` (with sign flipped), others to `push`. -/
def RoyaltyStack.allocate (s : RoyaltyStack) (delta : Int) :
    Option (List (Int × Int) × RoyaltyStack) :=
  if delta < 0 then s.pop (-delta) else s.push delta

/-- States reachable from the freshly constructed allocator by fully-consumed
(successful) `push` / `pop` calls and `reset`. -/
inductive Reachable (p : List Step) : RoyaltyStack → Prop where
  | init : Reachable p (RoyaltyStack.init p)
  | push {s c out s'} : Reachable p s → s.push c = some (out, s') → Reachable p s'
  | pop {s c out s'} : Reachable p s → s.pop c = some (out, s') → Reachable p s'
  | reset {s} : Reachable p s → Reachable p s.reset

/-- The three-tier progression of the source's tests:
`[Step(7, 5000), Step(8, 10000), Step(9, 0)]`. -/
def roy : List Step := [⟨7, 5000⟩, ⟨8, 10000⟩, ⟨9, 0⟩]

/-- All per-tier widths are nonnegative (true of every stack built from a
progression that passes `progression_is_valid`). -/
def WNonneg (s : RoyaltyStack) : Prop := ∀ j, 0 ≤ s.limits.getD j 0

/-- The state invariant of the allocator: the attribution and width maps are
tier-indexed alongside `rates`; every tier strictly below the active one is
exactly full (and has a finite, nonzero width — it was advanced past); every
tier strictly above is untouched; the active tier never exceeds a finite
width; and the active tier's attribution can only go negative at tier 0. -/
structure Inv (s : RoyaltyStack) : Prop where
  hcl : s.cursor.length = s.rates.length
  hll : s.limits.length = s.rates.length
  below : ∀ j, j < s.rate_index →
    s.cursor.getD j 0 = s.limits.getD j 0 ∧ s.limits.getD j 0 ≠ 0
  above : ∀ j, s.rate_index < j → s.cursor.getD j 0 = 0
  at_le : s.limits.getD s.rate_index 0 ≠ 0 →
    s.cursor.getD s.rate_index 0 ≤ s.limits.getD s.rate_index 0
  at_nonneg : 0 < s.rate_index → 0 ≤ s.cursor.getD s.rate_index 0

/-- The rate index of any reachable state is 0 (fresh/reset) or in range. -/
def riOK (s : RoyaltyStack) : Prop :=
  s.rate_index = 0 ∨ s.rate_index < s.rates.length

/-- Python `Decimal` values as they occur in this program: a signed integer
coefficient and a power-of-ten exponent, `value = coeff * 10 ^ exp`
(e.g. `Decimal('28.40')` is `⟨2840, -2⟩`).  The program's arithmetic
(`int * Decimal`, `Decimal / 100`, `Decimal - Decimal`) stays far below the
28-significant-digit context bound, where `Decimal` arithmetic is exact. -/
structure Dec where
  coeff : Int
  exp : Int
deriving DecidableEq, Repr

/-- The rational value a `Dec` denotes. -/
def Dec.val (d : Dec) : ℚ := (d.coeff : ℚ) * (10 : ℚ) ^ d.exp

/-- Multiplication `int * Decimal`: the int is converted to a coefficient-`n`, exponent-0
decimal and coefficients multiply, exponents add (exact). -/
def Dec.intMul (n : Int) (d : Dec) : Dec := ⟨n * d.coeff, d.exp⟩

/-- Division `Decimal / 100` with divisor `Decimal(100)` (coefficient 100,
exponent 0): the exact quotient `coeff * 10 ^ (exp - 2)` is brought toward
the ideal exponent `exp - 0` by removing at most two trailing zeros from the
coefficient, per the General Decimal Arithmetic rule Python implements for
exact division. -/
def Dec.div100 (d : Dec) : Dec :=
  if d.coeff % 100 = 0 then ⟨d.coeff / 100, d.exp⟩
  else if d.coeff % 10 = 0 then ⟨d.coeff / 10, d.exp - 1⟩
  else ⟨d.coeff, d.exp - 2⟩

/-- Subtraction `Decimal - Decimal`: operands are aligned at the smaller exponent and
coefficients subtracted (exact; addition/subtraction results keep the ideal
exponent `min`). -/
def Dec.sub (a b : Dec) : Dec :=
  ⟨a.coeff * 10 ^ (a.exp - min a.exp b.exp).toNat -
     b.coeff * 10 ^ (b.exp - min a.exp b.exp).toNat,
   min a.exp b.exp⟩

/-- Source: `Statement` (dataclass with `date`, `copies`, `price`); `name` is
the subclass property (`"trade volume"` for `TradeVolumeStatement`, `"ebook"`
for `EbookStatement`).  Dates are embedded as integers (`datetime.date` is
totally ordered; only its order is used). -/
structure Statement where
  date : Int
  copies : Int
  price : Dec
  name : String
deriving DecidableEq, Repr

/-- Source: `ReportItem` dataclass. -/
structure ReportItem where
  date : Int
  right : String
  copies : Int
  rate : String
  price : Dec
  advance_left : Option Dec
  due : Dec
deriving DecidableEq, Repr

/-- Source: `Right` (with `name` the subclass property). -/
structure Right where
  name : String
  progression : List Step
  royalty_stack : RoyaltyStack
deriving DecidableEq, Repr

/-- Source: `Right.__init__`: raises `ValueError` (embedded as `none`) unless
`progression_is_valid`; otherwise stores the progression and a fresh
`RoyaltyStack`. -/
def Right.make (name : String) (p : List Step) : Option Right :=
  if progression_is_valid p then some ⟨name, p, RoyaltyStack.init p⟩ else none

/-- Source: `Right.reset`, delegating to the stack. -/
def Right.reset (r : Right) : Right :=
  { r with royalty_stack := r.royalty_stack.reset }

/-- Source: `Right.apply_statement`: feeds `stmt.copies` through
`_get_iterator` (`RoyaltyStack.allocate` here) and wraps each
`(copies, rate)` pair in a `ReportItem` with
`rate = f'{rate}%'` and `due = copies * rate * stmt.price / 100`. -/
def Right.apply_statement (r : Right) (stmt : Statement) :
    Option (List ReportItem × Right) :=
  match r.royalty_stack.allocate stmt.copies with
  | none => none
  | some (pairs, rs) =>
    some (pairs.map fun pr =>
      { date := stmt.date
        right := r.name
        copies := pr.1
        rate := toString pr.2 ++ "%"
        price := stmt.price
        advance_left := none
        due := Dec.div100 (Dec.intMul (pr.1 * pr.2) stmt.price) },
      { r with royalty_stack := rs })

/-- Source: `Agreement` — `advance` (a `Decimal`), the per-name dict of
rights (embedded as an association list with the dict's unique-key lookup
and update semantics), and the accumulated statements. -/
structure Agreement where
  advance : Dec
  rights : List (String × Right)
  statements : List Statement
deriving DecidableEq, Repr

/-- Dict read `self.rights[s.name]` (`none` embeds `KeyError`). -/
def lookupRight : List (String × Right) → String → Option Right
  | [], _ => none
  | (n, r) :: rest, k => if n = k then some r else lookupRight rest k

/-- Dict write-back of the mutated right (Python mutates the stored object in
place; keys are unique in a dict, so replacing the first binding is exact). -/
def setRight : List (String × Right) → String → Right → List (String × Right)
  | [], _, _ => []
  | (n, v) :: rest, k, r => if n = k then (n, r) :: rest else (n, v) :: setRight rest k r

/-- Source: `Agreement._reset_rights`. -/
def reset_rights (rs : List (String × Right)) : List (String × Right) :=
  rs.map fun pr => (pr.1, pr.2.reset)

/-- The sort key of `Agreement._sort_statements`: order statements by date. -/
def dateLe (a b : Statement) : Prop := a.date ≤ b.date

instance : DecidableRel dateLe := fun a b => inferInstanceAs (Decidable (a.date ≤ b.date))

instance : IsTotal Statement dateLe := ⟨fun a b => Int.le_total a.date b.date⟩

instance : IsTrans Statement dateLe := ⟨fun _ _ _ h₁ h₂ => le_trans h₁ h₂⟩

/-- Source: `Agreement._sort_statements` — Python's `list.sort` is a stable
sort by the date key; `List.insertionSort` is the canonical stable sort, so
it produces the identical list. -/
def sort_statements (l : List Statement) : List Statement :=
  List.insertionSort dateLe l

/-- The `adv_left -= item.due; item.advance_left = adv_left` bookkeeping of
the loop in `Agreement.apply_statements`, over one statement's items:
returns the items with `advance_left` filled in and the final balance. -/
def attachAdvance : Dec → List ReportItem → List ReportItem × Dec
  | adv, [] => ([], adv)
  | adv, it :: rest =>
    let r := attachAdvance (adv.sub it.due) rest
    ({ it with advance_left := some (adv.sub it.due) } :: r.1, r.2)

/-- The per-statement phase of `Agreement.apply_statements`: for each
statement in order, look up the right by name, run `apply_statement`
(mutating that right's stack), and attribute the running advance balance to
each yielded item.  The generators in the source are consumed in statement
order by `chain.from_iterable`, so the mutations interleave exactly like
this sequential fold. -/
def processStatements : List (String × Right) → Dec → List Statement →
    Option (List ReportItem × List (String × Right) × Dec)
  | rights, adv, [] => some ([], rights, adv)
  | rights, adv, stmt :: rest =>
    match lookupRight rights stmt.name with
    | none => none
    | some r =>
      match r.apply_statement stmt with
      | none => none
      | some (items, r') =>
        let ia := attachAdvance adv items
        match processStatements (setRight rights stmt.name r') ia.2 rest with
        | none => none
        | some (out, rights', advF) => some (ia.1 ++ out, rights', advF)

/-- Source: `Agreement.apply_statements`: sort the stored statements by date
(in place — the sorted list persists in the agreement), reset every right,
then process statements in order tracking the advance balance.  The
agreement's own `advance` attribute is not modified. -/
def Agreement.apply_statements (a : Agreement) : Option (List ReportItem × Agreement) :=
  match processStatements (reset_rights a.rights) a.advance
      (sort_statements a.statements) with
  | none => none
  | some (items, rights', _) =>
    some (items, { a with statements := sort_statements a.statements, rights := rights' })

/-- A small agreement mirroring the source's test fixtures: advance 1500,
one trade-volume right on `roy`, and the two trade-volume statements of
2016 added in reverse date order (so sorting is exercised). -/
def agW : Agreement :=
  ⟨⟨1500, 0⟩, [("trade volume", ⟨"trade volume", roy, RoyaltyStack.init roy⟩)],
   [⟨20161231, 512, ⟨3490, -2⟩, "trade volume"⟩,
    ⟨20160630, 143, ⟨2840, -2⟩, "trade volume"⟩]⟩

/-- The report items `agW.apply_statements` yields. -/
def itemsW : List ReportItem :=
  [⟨20160630, "trade volume", 143, "7%", ⟨2840, -2⟩, some ⟨1215716, -3⟩, ⟨284284, -3⟩⟩,
   ⟨20161231, "trade volume", 512, "7%", ⟨3490, -2⟩, some ⟨-35100, -3⟩, ⟨1250816, -3⟩⟩]

/-- The agreement state `agW.apply_statements` leaves behind: statements
sorted, the right's stack carrying the cumulative 655 copies. -/
def agW2 : Agreement :=
  ⟨⟨1500, 0⟩,
   [("trade volume", ⟨"trade volume", roy, ⟨[7, 8, 9], [5000, 5000, 0], 0, [655, 0, 0]⟩⟩)],
   [⟨20160630, 143, ⟨2840, -2⟩, "trade volume"⟩,
    ⟨20161231, 512, ⟨3490, -2⟩, "trade volume"⟩]⟩

/-! ### List helpers -/

theorem getD_set_self : ∀ (l : List Int) (i : Nat) (a : Int), i < l.length →
    (l.set i a).getD i 0 = a
  | _ :: _, 0, _, _ => rfl
  | _ :: xs, i + 1, a, h => getD_set_self xs i a (by simpa using h)

theorem getD_set_ne : ∀ (l : List Int) (i j : Nat) (a : Int), i ≠ j →
    (l.set i a).getD j 0 = l.getD j 0
  | [], _, _, _, _ => by simp
  | _ :: _, 0, 0, _, h => absurd rfl h
  | _ :: _, 0, _ + 1, _, _ => rfl
  | _ :: _, _ + 1, 0, _, _ => rfl
  | _ :: xs, i + 1, j + 1, a, h => getD_set_ne xs i j a (by omega)

theorem sum_set (l : List Int) (i : Nat) (a : Int) (h : i < l.length) :
    (l.set i a).sum = l.sum - l.getD i 0 + a := by
  induction l generalizing i with
  | nil => simp at h
  | cons x xs ih =>
    cases i with
    | zero => simp [List.sum_cons]; ring
    | succ i =>
      simp only [List.set, List.sum_cons, List.getD_cons_succ,
        ih i (by simpa using h)]
      ring

theorem getD_replicate (n j : Nat) : (List.replicate n (0 : Int)).getD j 0 = 0 := by
  induction n generalizing j with
  | zero => simp
  | succ n ih =>
    cases j with
    | zero => rfl
    | succ j => simp [List.replicate, ih j]

theorem list_eq_of_getD : ∀ (l₁ l₂ : List Int), l₁.length = l₂.length →
    (∀ j, j < l₁.length → l₁.getD j 0 = l₂.getD j 0) → l₁ = l₂
  | [], [], _, _ => rfl
  | [], _ :: _, hl, _ => by simp at hl
  | _ :: _, [], hl, _ => by simp at hl
  | x :: xs, y :: ys, hl, h => by
    have h0 : x = y := h 0 (by simp)
    have hrest : xs = ys :=
      list_eq_of_getD xs ys (by simpa using hl) fun j hj => h (j + 1) (by simpa using hj)
    rw [h0, hrest]

theorem list_sum_getD : ∀ l : List Int, l.sum = ∑ j ∈ Finset.range l.length, l.getD j 0
  | [] => by simp
  | x :: xs => by
    rw [List.sum_cons, list_sum_getD xs, List.length_cons, Finset.sum_range_succ']
    simp [add_comm]

/-! ### push/pop: preservation of the static fields and of cursor length -/

theorem pushAux_static (fuel : Nat) :
    ∀ (s : RoyaltyStack) (c : Int) (out : List (Int × Int)) (s' : RoyaltyStack),
      pushAux fuel s c = some (out, s') →
      s'.rates = s.rates ∧ s'.limits = s.limits ∧ s'.cursor.length = s.cursor.length := by
  induction fuel with
  | zero =>
    intro s c out s' h
    rw [pushAux] at h
    by_cases hc : c ≤ 0
    · simp only [if_pos hc, Option.some.injEq, Prod.mk.injEq] at h
      rw [← h.2]
      exact ⟨rfl, rfl, rfl⟩
    · simp [if_neg hc] at h
  | succ fuel ih =>
    intro s c out s' h
    rw [pushAux] at h
    by_cases hc : c ≤ 0
    · simp only [if_pos hc, Option.some.injEq, Prod.mk.injEq] at h
      rw [← h.2]
      exact ⟨rfl, rfl, rfl⟩
    · simp only [if_neg hc] at h
      cases hg : s.rates.get? s.rate_index with
      | none => rw [hg] at h; simp at h
      | some cr =>
        rw [hg] at h
        by_cases hb : s.limits.getD s.rate_index 0 = 0 ∨
            s.cursor.getD s.rate_index 0 + c ≤ s.limits.getD s.rate_index 0
        · simp only [if_pos hb, Option.some.injEq, Prod.mk.injEq] at h
          rw [← h.2]
          exact ⟨rfl, rfl, by simp⟩
        · simp only [if_neg hb] at h
          cases hr : pushAux fuel
              { s with
                rate_index := s.rate_index + 1
                cursor := s.cursor.set s.rate_index (s.limits.getD s.rate_index 0) }
              (c - (s.limits.getD s.rate_index 0 - s.cursor.getD s.rate_index 0)) with
          | none => rw [hr] at h; simp at h
          | some pr =>
            rw [hr] at h
            obtain ⟨out₂, s₂⟩ := pr
            simp only [Option.some.injEq, Prod.mk.injEq] at h
            have := ih _ _ _ _ hr
            rw [← h.2]
            simpa using this

theorem popAux_static (fuel : Nat) :
    ∀ (s : RoyaltyStack) (c : Int) (out : List (Int × Int)) (s' : RoyaltyStack),
      popAux fuel s c = some (out, s') →
      s'.rates = s.rates ∧ s'.limits = s.limits ∧ s'.cursor.length = s.cursor.length := by
  induction fuel with
  | zero =>
    intro s c out s' h
    rw [popAux] at h
    by_cases hc : c ≤ 0
    · simp only [if_pos hc, Option.some.injEq, Prod.mk.injEq] at h
      rw [← h.2]
      exact ⟨rfl, rfl, rfl⟩
    · simp [if_neg hc] at h
  | succ fuel ih =>
    intro s c out s' h
    rw [popAux] at h
    by_cases hc : c ≤ 0
    · simp only [if_pos hc, Option.some.injEq, Prod.mk.injEq] at h
      rw [← h.2]
      exact ⟨rfl, rfl, rfl⟩
    · simp only [if_neg hc] at h
      cases hg : s.rates.get? s.rate_index with
      | none => rw [hg] at h; simp at h
      | some cr =>
        rw [hg] at h
        by_cases hb : s.rate_index = 0 ∨ 0 ≤ s.cursor.getD s.rate_index 0 - c
        · simp only [if_pos hb, Option.some.injEq, Prod.mk.injEq] at h
          rw [← h.2]
          exact ⟨rfl, rfl, by simp⟩
        · simp only [if_neg hb] at h
          cases hr : popAux fuel
              { s with
                rate_index := s.rate_index - 1
                cursor := s.cursor.set s.rate_index 0 }
              (c - s.cursor.getD s.rate_index 0) with
          | none => rw [hr] at h; simp at h
          | some pr =>
            rw [hr] at h
            obtain ⟨out₂, s₂⟩ := pr
            simp only [Option.some.injEq, Prod.mk.injEq] at h
            have := ih _ _ _ _ hr
            rw [← h.2]
            simpa using this

/-! ### Conservation: the yielded quantities of one call sum to the delta -/

theorem pushAux_sum (fuel : Nat) :
    ∀ (s : RoyaltyStack) (c : Int) (out : List (Int × Int)) (s' : RoyaltyStack),
      0 ≤ c → pushAux fuel s c = some (out, s') → (out.map Prod.fst).sum = c := by
  induction fuel with
  | zero =>
    intro s c out s' hc0 h
    rw [pushAux] at h
    by_cases hc : c ≤ 0
    · simp only [if_pos hc, Option.some.injEq, Prod.mk.injEq] at h
      rw [← h.1]
      simp
      omega
    · simp [if_neg hc] at h
  | succ fuel ih =>
    intro s c out s' hc0 h
    rw [pushAux] at h
    by_cases hc : c ≤ 0
    · simp only [if_pos hc, Option.some.injEq, Prod.mk.injEq] at h
      rw [← h.1]
      simp
      omega
    · simp only [if_neg hc] at h
      cases hg : s.rates.get? s.rate_index with
      | none => rw [hg] at h; simp at h
      | some cr =>
        rw [hg] at h
        by_cases hb : s.limits.getD s.rate_index 0 = 0 ∨
            s.cursor.getD s.rate_index 0 + c ≤ s.limits.getD s.rate_index 0
        · simp only [if_pos hb, Option.some.injEq, Prod.mk.injEq] at h
          rw [← h.1]
          simp
        · simp only [if_neg hb] at h
          cases hr : pushAux fuel
              { s with
                rate_index := s.rate_index + 1
                cursor := s.cursor.set s.rate_index (s.limits.getD s.rate_index 0) }
              (c - (s.limits.getD s.rate_index 0 - s.cursor.getD s.rate_index 0)) with
          | none => rw [hr] at h; simp at h
          | some pr =>
            rw [hr] at h
            obtain ⟨out₂, s₂⟩ := pr
            simp only [Option.some.injEq, Prod.mk.injEq] at h
            obtain ⟨hb1, hb2⟩ := not_or.mp hb
            have ihs := ih _ _ _ _ (by omega) hr
            rw [← h.1]
            simp only [List.map_cons, List.sum_cons, ihs]
            ring

theorem popAux_sum (fuel : Nat) :
    ∀ (s : RoyaltyStack) (c : Int) (out : List (Int × Int)) (s' : RoyaltyStack),
      0 ≤ c → popAux fuel s c = some (out, s') → (out.map Prod.fst).sum = -c := by
  induction fuel with
  | zero =>
    intro s c out s' hc0 h
    rw [popAux] at h
    by_cases hc : c ≤ 0
    · simp only [if_pos hc, Option.some.injEq, Prod.mk.injEq] at h
      rw [← h.1]
      simp
      omega
    · simp [if_neg hc] at h
  | succ fuel ih =>
    intro s c out s' hc0 h
    rw [popAux] at h
    by_cases hc : c ≤ 0
    · simp only [if_pos hc, Option.some.injEq, Prod.mk.injEq] at h
      rw [← h.1]
      simp
      omega
    · simp only [if_neg hc] at h
      cases hg : s.rates.get? s.rate_index with
      | none => rw [hg] at h; simp at h
      | some cr =>
        rw [hg] at h
        by_cases hb : s.rate_index = 0 ∨ 0 ≤ s.cursor.getD s.rate_index 0 - c
        · simp only [if_pos hb, Option.some.injEq, Prod.mk.injEq] at h
          rw [← h.1]
          simp
        · simp only [if_neg hb] at h
          cases hr : popAux fuel
              { s with
                rate_index := s.rate_index - 1
                cursor := s.cursor.set s.rate_index 0 }
              (c - s.cursor.getD s.rate_index 0) with
          | none => rw [hr] at h; simp at h
          | some pr =>
            rw [hr] at h
            obtain ⟨out₂, s₂⟩ := pr
            simp only [Option.some.injEq, Prod.mk.injEq] at h
            obtain ⟨hb1, hb2⟩ := not_or.mp hb
            have ihs := ih _ _ _ _ (by omega) hr
            rw [← h.1]
            simp only [List.map_cons, List.sum_cons, ihs]
            ring

/-! ### The attribution-map total moves by exactly the delta -/

theorem pushAux_cursor_sum (fuel : Nat) :
    ∀ (s : RoyaltyStack) (c : Int) (out : List (Int × Int)) (s' : RoyaltyStack),
      s.cursor.length = s.rates.length → 0 ≤ c →
      pushAux fuel s c = some (out, s') → s'.cursor.sum = s.cursor.sum + c := by
  induction fuel with
  | zero =>
    intro s c out s' hcl hc0 h
    rw [pushAux] at h
    by_cases hc : c ≤ 0
    · simp only [if_pos hc, Option.some.injEq, Prod.mk.injEq] at h
      rw [← h.2]
      omega
    · simp [if_neg hc] at h
  | succ fuel ih =>
    intro s c out s' hcl hc0 h
    rw [pushAux] at h
    by_cases hc : c ≤ 0
    · simp only [if_pos hc, Option.some.injEq, Prod.mk.injEq] at h
      rw [← h.2]
      omega
    · simp only [if_neg hc] at h
      cases hg : s.rates.get? s.rate_index with
      | none => rw [hg] at h; simp at h
      | some cr =>
        have hlt : s.rate_index < s.cursor.length := by
          rw [hcl]
          exact (List.get?_eq_some.mp hg).1
        rw [hg] at h
        by_cases hb : s.limits.getD s.rate_index 0 = 0 ∨
            s.cursor.getD s.rate_index 0 + c ≤ s.limits.getD s.rate_index 0
        · simp only [if_pos hb, Option.some.injEq, Prod.mk.injEq] at h
          rw [← h.2]
          rw [sum_set _ _ _ hlt]
          ring
        · simp only [if_neg hb] at h
          cases hr : pushAux fuel
              { s with
                rate_index := s.rate_index + 1
                cursor := s.cursor.set s.rate_index (s.limits.getD s.rate_index 0) }
              (c - (s.limits.getD s.rate_index 0 - s.cursor.getD s.rate_index 0)) with
          | none => rw [hr] at h; simp at h
          | some pr =>
            rw [hr] at h
            obtain ⟨out₂, s₂⟩ := pr
            simp only [Option.some.injEq, Prod.mk.injEq] at h
            obtain ⟨hb1, hb2⟩ := not_or.mp hb
            have ihs := ih _ _ _ _ (by simpa using hcl) (by omega) hr
            rw [← h.2, ihs]
            simp only
            rw [sum_set _ _ _ hlt]
            ring

theorem popAux_cursor_sum (fuel : Nat) :
    ∀ (s : RoyaltyStack) (c : Int) (out : List (Int × Int)) (s' : RoyaltyStack),
      s.cursor.length = s.rates.length → 0 ≤ c →
      popAux fuel s c = some (out, s') → s'.cursor.sum = s.cursor.sum - c := by
  induction fuel with
  | zero =>
    intro s c out s' hcl hc0 h
    rw [popAux] at h
    by_cases hc : c ≤ 0
    · simp only [if_pos hc, Option.some.injEq, Prod.mk.injEq] at h
      rw [← h.2]
      omega
    · simp [if_neg hc] at h
  | succ fuel ih =>
    intro s c out s' hcl hc0 h
    rw [popAux] at h
    by_cases hc : c ≤ 0
    · simp only [if_pos hc, Option.some.injEq, Prod.mk.injEq] at h
      rw [← h.2]
      omega
    · simp only [if_neg hc] at h
      cases hg : s.rates.get? s.rate_index with
      | none => rw [hg] at h; simp at h
      | some cr =>
        have hlt : s.rate_index < s.cursor.length := by
          rw [hcl]
          exact (List.get?_eq_some.mp hg).1
        rw [hg] at h
        by_cases hb : s.rate_index = 0 ∨ 0 ≤ s.cursor.getD s.rate_index 0 - c
        · simp only [if_pos hb, Option.some.injEq, Prod.mk.injEq] at h
          rw [← h.2]
          rw [sum_set _ _ _ hlt]
          ring
        · simp only [if_neg hb] at h
          cases hr : popAux fuel
              { s with
                rate_index := s.rate_index - 1
                cursor := s.cursor.set s.rate_index 0 }
              (c - s.cursor.getD s.rate_index 0) with
          | none => rw [hr] at h; simp at h
          | some pr =>
            rw [hr] at h
            obtain ⟨out₂, s₂⟩ := pr
            simp only [Option.some.injEq, Prod.mk.injEq] at h
            obtain ⟨hb1, hb2⟩ := not_or.mp hb
            have ihs := ih _ _ _ _ (by simpa using hcl) (by omega) hr
            rw [← h.2, ihs]
            simp only
            rw [sum_set _ _ _ hlt]
            ring

/-! ### After a successful non-trivial call the rate index is in range -/

theorem pushAux_ri (fuel : Nat) :
    ∀ (s : RoyaltyStack) (c : Int) (out : List (Int × Int)) (s' : RoyaltyStack),
      0 < c → pushAux fuel s c = some (out, s') →
      s'.rate_index < s'.rates.length := by
  induction fuel with
  | zero =>
    intro s c out s' hc0 h
    rw [pushAux] at h
    rw [if_neg (by omega)] at h
    simp at h
  | succ fuel ih =>
    intro s c out s' hc0 h
    rw [pushAux] at h
    rw [if_neg (by omega)] at h
    cases hg : s.rates.get? s.rate_index with
    | none => rw [hg] at h; simp at h
    | some cr =>
      rw [hg] at h
      by_cases hb : s.limits.getD s.rate_index 0 = 0 ∨
          s.cursor.getD s.rate_index 0 + c ≤ s.limits.getD s.rate_index 0
      · simp only [if_pos hb, Option.some.injEq, Prod.mk.injEq] at h
        rw [← h.2]
        exact (List.get?_eq_some.mp hg).1
      · simp only [if_neg hb] at h
        cases hr : pushAux fuel
            { s with
              rate_index := s.rate_index + 1
              cursor := s.cursor.set s.rate_index (s.limits.getD s.rate_index 0) }
            (c - (s.limits.getD s.rate_index 0 - s.cursor.getD s.rate_index 0)) with
        | none => rw [hr] at h; simp at h
        | some pr =>
          rw [hr] at h
          obtain ⟨out₂, s₂⟩ := pr
          simp only [Option.some.injEq, Prod.mk.injEq] at h
          obtain ⟨hb1, hb2⟩ := not_or.mp hb
          have := ih _ _ _ _ (by omega) hr
          rw [← h.2]
          exact this

theorem popAux_ri (fuel : Nat) :
    ∀ (s : RoyaltyStack) (c : Int) (out : List (Int × Int)) (s' : RoyaltyStack),
      0 < c → popAux fuel s c = some (out, s') →
      s'.rate_index < s'.rates.length := by
  induction fuel with
  | zero =>
    intro s c out s' hc0 h
    rw [popAux] at h
    rw [if_neg (by omega)] at h
    simp at h
  | succ fuel ih =>
    intro s c out s' hc0 h
    rw [popAux] at h
    rw [if_neg (by omega)] at h
    cases hg : s.rates.get? s.rate_index with
    | none => rw [hg] at h; simp at h
    | some cr =>
      rw [hg] at h
      by_cases hb : s.rate_index = 0 ∨ 0 ≤ s.cursor.getD s.rate_index 0 - c
      · simp only [if_pos hb, Option.some.injEq, Prod.mk.injEq] at h
        rw [← h.2]
        exact (List.get?_eq_some.mp hg).1
      · simp only [if_neg hb] at h
        cases hr : popAux fuel
            { s with
              rate_index := s.rate_index - 1
              cursor := s.cursor.set s.rate_index 0 }
            (c - s.cursor.getD s.rate_index 0) with
        | none => rw [hr] at h; simp at h
        | some pr =>
          rw [hr] at h
          obtain ⟨out₂, s₂⟩ := pr
          simp only [Option.some.injEq, Prod.mk.injEq] at h
          obtain ⟨hb1, hb2⟩ := not_or.mp hb
          have := ih _ _ _ _ (by omega) hr
          rw [← h.2]
          exact this

/-! ### Invariant preservation -/

theorem pushAux_inv (fuel : Nat) :
    ∀ (s : RoyaltyStack) (c : Int) (out : List (Int × Int)) (s' : RoyaltyStack),
      Inv s → WNonneg s → pushAux fuel s c = some (out, s') → Inv s' := by
  induction fuel with
  | zero =>
    intro s c out s' hs hw h
    rw [pushAux] at h
    by_cases hc : c ≤ 0
    · simp only [if_pos hc, Option.some.injEq, Prod.mk.injEq] at h
      rw [← h.2]
      exact hs
    · simp [if_neg hc] at h
  | succ fuel ih =>
    intro s c out s' hs hw h
    rw [pushAux] at h
    by_cases hc : c ≤ 0
    · simp only [if_pos hc, Option.some.injEq, Prod.mk.injEq] at h
      rw [← h.2]
      exact hs
    · simp only [if_neg hc] at h
      cases hg : s.rates.get? s.rate_index with
      | none => rw [hg] at h; simp at h
      | some cr =>
        have hlt : s.rate_index < s.cursor.length := by
          rw [hs.hcl]
          exact (List.get?_eq_some.mp hg).1
        rw [hg] at h
        by_cases hb : s.limits.getD s.rate_index 0 = 0 ∨
            s.cursor.getD s.rate_index 0 + c ≤ s.limits.getD s.rate_index 0
        · simp only [if_pos hb, Option.some.injEq, Prod.mk.injEq] at h
          rw [← h.2]
          refine ⟨by simpa using hs.hcl, hs.hll, ?_, ?_, ?_, ?_⟩
          · intro j hj
            simp only at hj ⊢
            rw [getD_set_ne _ _ _ _ (by omega)]
            exact hs.below j hj
          · intro j hj
            simp only at hj ⊢
            rw [getD_set_ne _ _ _ _ (by omega)]
            exact hs.above j hj
          · intro hwz
            simp only at hwz ⊢
            rw [getD_set_self _ _ _ hlt]
            rcases hb with hb | hb
            · exact absurd hb hwz
            · exact hb
          · intro hri
            simp only at hri ⊢
            rw [getD_set_self _ _ _ hlt]
            have := hs.at_nonneg hri
            omega
        · simp only [if_neg hb] at h
          cases hr : pushAux fuel
              { s with
                rate_index := s.rate_index + 1
                cursor := s.cursor.set s.rate_index (s.limits.getD s.rate_index 0) }
              (c - (s.limits.getD s.rate_index 0 - s.cursor.getD s.rate_index 0)) with
          | none => rw [hr] at h; simp at h
          | some pr =>
            rw [hr] at h
            obtain ⟨out₂, s₂⟩ := pr
            simp only [Option.some.injEq, Prod.mk.injEq] at h
            obtain ⟨hb1, hb2⟩ := not_or.mp hb
            have hmid : Inv { s with
                rate_index := s.rate_index + 1
                cursor := s.cursor.set s.rate_index (s.limits.getD s.rate_index 0) } := by
              refine ⟨by simpa using hs.hcl, hs.hll, ?_, ?_, ?_, ?_⟩
              · intro j hj
                simp only at hj ⊢
                by_cases hje : j = s.rate_index
                · subst hje
                  rw [getD_set_self _ _ _ hlt]
                  exact ⟨rfl, hb1⟩
                · rw [getD_set_ne _ _ _ _ (by omega)]
                  exact hs.below j (by omega)
              · intro j hj
                simp only at hj ⊢
                rw [getD_set_ne _ _ _ _ (by omega)]
                exact hs.above j (by omega)
              · intro hwz
                simp only at hwz ⊢
                rw [getD_set_ne _ _ _ _ (by omega), hs.above _ (by omega)]
                exact hw _
              · intro hri
                simp only
                rw [getD_set_ne _ _ _ _ (by omega), hs.above _ (by omega)]
            have := ih _ _ _ _ hmid hw hr
            rw [← h.2]
            exact this

theorem popAux_inv (fuel : Nat) :
    ∀ (s : RoyaltyStack) (c : Int) (out : List (Int × Int)) (s' : RoyaltyStack),
      Inv s → WNonneg s → popAux fuel s c = some (out, s') → Inv s' := by
  induction fuel with
  | zero =>
    intro s c out s' hs hw h
    rw [popAux] at h
    by_cases hc : c ≤ 0
    · simp only [if_pos hc, Option.some.injEq, Prod.mk.injEq] at h
      rw [← h.2]
      exact hs
    · simp [if_neg hc] at h
  | succ fuel ih =>
    intro s c out s' hs hw h
    rw [popAux] at h
    by_cases hc : c ≤ 0
    · simp only [if_pos hc, Option.some.injEq, Prod.mk.injEq] at h
      rw [← h.2]
      exact hs
    · simp only [if_neg hc] at h
      cases hg : s.rates.get? s.rate_index with
      | none => rw [hg] at h; simp at h
      | some cr =>
        have hlt : s.rate_index < s.cursor.length := by
          rw [hs.hcl]
          exact (List.get?_eq_some.mp hg).1
        rw [hg] at h
        by_cases hb : s.rate_index = 0 ∨ 0 ≤ s.cursor.getD s.rate_index 0 - c
        · simp only [if_pos hb, Option.some.injEq, Prod.mk.injEq] at h
          rw [← h.2]
          refine ⟨by simpa using hs.hcl, hs.hll, ?_, ?_, ?_, ?_⟩
          · intro j hj
            simp only at hj ⊢
            rw [getD_set_ne _ _ _ _ (by omega)]
            exact hs.below j hj
          · intro j hj
            simp only at hj ⊢
            rw [getD_set_ne _ _ _ _ (by omega)]
            exact hs.above j hj
          · intro hwz
            simp only at hwz ⊢
            rw [getD_set_self _ _ _ hlt]
            have := hs.at_le hwz
            omega
          · intro hri
            simp only at hri ⊢
            rw [getD_set_self _ _ _ hlt]
            rcases hb with hb | hb
            · omega
            · exact hb
        · simp only [if_neg hb] at h
          cases hr : popAux fuel
              { s with
                rate_index := s.rate_index - 1
                cursor := s.cursor.set s.rate_index 0 }
              (c - s.cursor.getD s.rate_index 0) with
          | none => rw [hr] at h; simp at h
          | some pr =>
            rw [hr] at h
            obtain ⟨out₂, s₂⟩ := pr
            simp only [Option.some.injEq, Prod.mk.injEq] at h
            obtain ⟨hb1, hb2⟩ := not_or.mp hb
            have hri1 : 1 ≤ s.rate_index := by omega
            have hmid : Inv { s with
                rate_index := s.rate_index - 1
                cursor := s.cursor.set s.rate_index 0 } := by
              refine ⟨by simpa using hs.hcl, hs.hll, ?_, ?_, ?_, ?_⟩
              · intro j hj
                simp only at hj ⊢
                rw [getD_set_ne _ _ _ _ (by omega)]
                exact hs.below j (by omega)
              · intro j hj
                simp only at hj ⊢
                by_cases hje : j = s.rate_index
                · subst hje
                  rw [getD_set_self _ _ _ hlt]
                · rw [getD_set_ne _ _ _ _ (by omega)]
                  exact hs.above j (by omega)
              · intro hwz
                simp only at hwz ⊢
                rw [getD_set_ne _ _ _ _ (by omega)]
                exact le_of_eq (hs.below _ (by omega)).1
              · intro hri
                simp only at hri ⊢
                rw [getD_set_ne _ _ _ _ (by omega),
                  (hs.below (s.rate_index - 1) (by omega)).1]
                exact hw _
            have := ih _ _ _ _ hmid hw hr
            rw [← h.2]
            exact this

/-! ### The invariant at construction and reset, and width nonnegativity -/

theorem init_inv (p : List Step) (hw : WNonneg (RoyaltyStack.init p)) :
    Inv (RoyaltyStack.init p) := by
  refine ⟨by simp [RoyaltyStack.init], by simp [RoyaltyStack.init, initLimits], ?_, ?_, ?_, ?_⟩
  · intro j hj
    simp [RoyaltyStack.init] at hj
  · intro j _
    exact getD_replicate _ _
  · intro _
    rw [show (RoyaltyStack.init p).cursor.getD (RoyaltyStack.init p).rate_index 0 = 0 from
      getD_replicate _ _]
    exact hw _
  · intro hj
    simp [RoyaltyStack.init] at hj

theorem reset_inv (s : RoyaltyStack) (hs : Inv s) (hw : WNonneg s) : Inv s.reset := by
  refine ⟨by simp [RoyaltyStack.reset], hs.hll, ?_, ?_, ?_, ?_⟩
  · intro j hj
    simp [RoyaltyStack.reset] at hj
  · intro j _
    exact getD_replicate _ _
  · intro _
    rw [show s.reset.cursor.getD s.reset.rate_index 0 = 0 from getD_replicate _ _]
    exact hw _
  · intro hj
    simp [RoyaltyStack.reset] at hj

theorem initLimits_getD (p : List Step) (j : Nat) (hj : j < p.length) :
    (initLimits p).getD j 0 =
      if j = 0 ∨ (p.getD j dStep).limit = 0 then (p.getD j dStep).limit
      else (p.getD j dStep).limit - (p.getD (j - 1) dStep).limit := by
  simp [initLimits, List.getD, List.getElem?_map, List.getElem?_range hj]

theorem valid_parts (p : List Step) (hv : progression_is_valid p = true) :
    ∀ j, j < p.length →
      (j = 0 → 0 ≤ (p.getD 0 dStep).rate ∧ 0 ≤ (p.getD 0 dStep).limit) ∧
      (j ≠ 0 → j = p.length - 1 →
        (p.getD (j - 1) dStep).rate < (p.getD j dStep).rate ∧ (p.getD j dStep).limit = 0) ∧
      (j ≠ 0 → j ≠ p.length - 1 →
        (p.getD (j - 1) dStep).rate < (p.getD j dStep).rate ∧
        (p.getD (j - 1) dStep).limit < (p.getD j dStep).limit) := by
  intro j hj
  rw [progression_is_valid, List.all_eq_true] at hv
  have hvj := hv j (List.mem_range.mpr hj)
  refine ⟨?_, ?_, ?_⟩
  · intro h0
    subst h0
    rw [if_pos rfl] at hvj
    simp only [Bool.not_eq_eq_eq_not, Bool.not_true, decide_eq_false_iff_not, not_or,
      not_lt] at hvj
    exact hvj
  · intro h0 hlast
    rw [if_neg h0, if_pos hlast] at hvj
    simp only [Bool.not_eq_eq_eq_not, Bool.not_true, decide_eq_false_iff_not, not_or,
      not_le, not_not] at hvj
    exact hvj
  · intro h0 hlast
    rw [if_neg h0, if_neg hlast] at hvj
    simp only [Bool.not_eq_eq_eq_not, Bool.not_true, decide_eq_false_iff_not, not_or,
      not_le] at hvj
    exact hvj

theorem valid_limit_nonneg (p : List Step) (hv : progression_is_valid p = true) :
    ∀ j, j < p.length → 0 ≤ (p.getD j dStep).limit := by
  intro j
  induction j with
  | zero =>
    intro hj
    exact ((valid_parts p hv 0 hj).1 rfl).2
  | succ j ih =>
    intro hj
    by_cases hlast : j + 1 = p.length - 1
    · have := ((valid_parts p hv (j + 1) hj).2.1 (by omega) hlast).2
      omega
    · have h2 := ((valid_parts p hv (j + 1) hj).2.2 (by omega) hlast).2
      have h1 := ih (by omega)
      simp only [Nat.add_sub_cancel] at h2
      omega

theorem valid_initLimits_nonneg (p : List Step) (hv : progression_is_valid p = true) :
    ∀ j, 0 ≤ (initLimits p).getD j 0 := by
  intro j
  by_cases hj : j < p.length
  · rw [initLimits_getD p j hj]
    by_cases hb : j = 0 ∨ (p.getD j dStep).limit = 0
    · rw [if_pos hb]
      exact valid_limit_nonneg p hv j hj
    · rw [if_neg hb]
      obtain ⟨hb0, hbl⟩ := not_or.mp hb
      by_cases hlast : j = p.length - 1
      · exact absurd ((valid_parts p hv j hj).2.1 hb0 hlast).2 hbl
      · have := ((valid_parts p hv j hj).2.2 hb0 hlast).2
        omega
  · rw [List.getD_eq_default]
    rw [initLimits, List.length_map, List.length_range]
    omega

/-! ### Reachable states: static fields, invariant, rate-index bound -/

theorem wnonneg_of_limits (p : List Step) (s : RoyaltyStack)
    (hv : progression_is_valid p = true) (hl : s.limits = initLimits p) : WNonneg s := by
  intro j
  rw [hl]
  exact valid_initLimits_nonneg p hv j

theorem pushAux_nonpos (fuel : Nat) (s : RoyaltyStack) (c : Int) (hc : c ≤ 0) :
    pushAux fuel s c = some ([], s) := by
  rw [pushAux.eq_def]
  exact if_pos hc

theorem popAux_nonpos (fuel : Nat) (s : RoyaltyStack) (c : Int) (hc : c ≤ 0) :
    popAux fuel s c = some ([], s) := by
  rw [popAux.eq_def]
  exact if_pos hc

theorem reachable_inv (p : List Step) (hv : progression_is_valid p = true)
    (s : RoyaltyStack) (hr : Reachable p s) :
    s.rates = p.map Step.rate ∧ s.limits = initLimits p ∧ Inv s ∧ riOK s := by
  induction hr with
  | init =>
    refine ⟨rfl, rfl, ?_, Or.inl rfl⟩
    exact init_inv p (wnonneg_of_limits p _ hv rfl)
  | @push s c out s' _ hp ih =>
    obtain ⟨hra, hli, hinv, hok⟩ := ih
    rw [RoyaltyStack.push] at hp
    obtain ⟨hra', hli', _⟩ := pushAux_static _ _ _ _ _ hp
    refine ⟨hra' ▸ hra, hli' ▸ hli, pushAux_inv _ _ _ _ _ hinv
      (wnonneg_of_limits p _ hv hli) hp, ?_⟩
    by_cases hc : c ≤ 0
    · rw [pushAux_nonpos _ _ _ hc] at hp
      simp only [Option.some.injEq, Prod.mk.injEq] at hp
      rw [← hp.2]
      exact hok
    · exact Or.inr (pushAux_ri _ _ _ _ _ (by omega) hp)
  | @pop s c out s' _ hp ih =>
    obtain ⟨hra, hli, hinv, hok⟩ := ih
    rw [RoyaltyStack.pop] at hp
    obtain ⟨hra', hli', _⟩ := popAux_static _ _ _ _ _ hp
    refine ⟨hra' ▸ hra, hli' ▸ hli, popAux_inv _ _ _ _ _ hinv
      (wnonneg_of_limits p _ hv hli) hp, ?_⟩
    by_cases hc : c ≤ 0
    · rw [popAux_nonpos _ _ _ hc] at hp
      simp only [Option.some.injEq, Prod.mk.injEq] at hp
      rw [← hp.2]
      exact hok
    · exact Or.inr (popAux_ri _ _ _ _ _ (by omega) hp)
  | @reset s _ ih =>
    obtain ⟨hra, hli, hinv, _⟩ := ih
    exact ⟨hra, hli, reset_inv s hinv (wnonneg_of_limits p _ hv hli), Or.inl rfl⟩

/-! ### The attribution map of an invariant state is determined by its total -/

theorem sum_cursor_decomp (s : RoyaltyStack) (hs : Inv s)
    (hri : s.rate_index < s.rates.length) :
    s.cursor.sum = (∑ j ∈ Finset.range s.rate_index, s.limits.getD j 0) +
      s.cursor.getD s.rate_index 0 := by
  rw [list_sum_getD, hs.hcl]
  have h1 : (∑ j ∈ Finset.range s.rates.length, s.cursor.getD j 0) =
      (∑ j ∈ Finset.Ico 0 s.rate_index, s.cursor.getD j 0) +
      ∑ j ∈ Finset.Ico s.rate_index s.rates.length, s.cursor.getD j 0 := by
    rw [Finset.sum_Ico_consecutive _ (Nat.zero_le _) (le_of_lt hri), Finset.range_eq_Ico]
  rw [h1, Finset.sum_eq_sum_Ico_succ_bot hri]
  have h2 : (∑ j ∈ Finset.Ico (s.rate_index + 1) s.rates.length, s.cursor.getD j 0) = 0 :=
    Finset.sum_eq_zero fun j hj => hs.above j (Finset.mem_Ico.mp hj).1
  have h3 : (∑ j ∈ Finset.Ico 0 s.rate_index, s.cursor.getD j 0) =
      ∑ j ∈ Finset.Ico 0 s.rate_index, s.limits.getD j 0 :=
    Finset.sum_congr rfl fun j hj => (hs.below j (Finset.mem_Ico.mp hj).2).1
  rw [h2, h3, Finset.range_eq_Ico]
  ring

theorem cursor_det_le (s t : RoyaltyStack)
    (hra : t.rates = s.rates) (hli : t.limits = s.limits)
    (hw : WNonneg s) (hs : Inv s) (ht : Inv t)
    (hrs : s.rate_index < s.rates.length) (hrt : t.rate_index < t.rates.length)
    (hle : s.rate_index ≤ t.rate_index)
    (hsum : s.cursor.sum = t.cursor.sum) : s.cursor = t.cursor := by
  have hd1 := sum_cursor_decomp s hs hrs
  have hd2 := sum_cursor_decomp t ht hrt
  rw [hli] at hd2
  have htbelow : ∀ j, j < t.rate_index →
      t.cursor.getD j 0 = s.limits.getD j 0 ∧ s.limits.getD j 0 ≠ 0 := by
    intro j hj
    have := ht.below j hj
    rw [hli] at this
    exact this
  rcases Nat.lt_or_ge s.rate_index t.rate_index with hlt | hge
  · -- strictly below: the boundary case; derive r₂ = r₁ + 1, c₂ = 0, c₁ = width r₁
    have hmid : (∑ j ∈ Finset.range t.rate_index, s.limits.getD j 0) =
        (∑ j ∈ Finset.range s.rate_index, s.limits.getD j 0) +
        ∑ j ∈ Finset.Ico s.rate_index t.rate_index, s.limits.getD j 0 := by
      rw [Finset.range_eq_Ico]
      exact (Finset.sum_Ico_consecutive _ (Nat.zero_le _) (le_of_lt hlt)).symm
    have hsb : (∑ j ∈ Finset.Ico s.rate_index t.rate_index, s.limits.getD j 0) =
        s.limits.getD s.rate_index 0 +
        ∑ j ∈ Finset.Ico (s.rate_index + 1) t.rate_index, s.limits.getD j 0 :=
      Finset.sum_eq_sum_Ico_succ_bot hlt _
    have hlow : ∀ j ∈ Finset.Ico (s.rate_index + 1) t.rate_index, (1 : ℤ) ≤ s.limits.getD j 0 := by
      intro j hj
      have hj2 := (Finset.mem_Ico.mp hj).2
      have := (htbelow j hj2).2
      have := hw j
      omega
    have hcard : ((t.rate_index - (s.rate_index + 1) : ℕ) : ℤ) ≤
        ∑ j ∈ Finset.Ico (s.rate_index + 1) t.rate_index, s.limits.getD j 0 := by
      calc ((t.rate_index - (s.rate_index + 1) : ℕ) : ℤ)
          = ∑ _j ∈ Finset.Ico (s.rate_index + 1) t.rate_index, (1 : ℤ) := by
            rw [Finset.sum_const, Nat.card_Ico]
            simp
        _ ≤ _ := Finset.sum_le_sum hlow
    have hc1 : s.cursor.getD s.rate_index 0 ≤ s.limits.getD s.rate_index 0 :=
      hs.at_le (htbelow s.rate_index hlt).2
    have hc2 : 0 ≤ t.cursor.getD t.rate_index 0 := ht.at_nonneg (by omega)
    have hr2eq : t.rate_index = s.rate_index + 1 := by omega
    have hczero : t.cursor.getD t.rate_index 0 = 0 := by omega
    have hcfull : s.cursor.getD s.rate_index 0 = s.limits.getD s.rate_index 0 := by omega
    refine list_eq_of_getD _ _ (by rw [hs.hcl, ht.hcl, hra]) ?_
    intro j hj
    rcases Nat.lt_or_ge j s.rate_index with h1 | h1
    · rw [(hs.below j h1).1, ← hli, (ht.below j (by omega)).1]
    · rcases Nat.eq_or_lt_of_le h1 with h2 | h2
      · subst h2
        rw [hcfull, (htbelow s.rate_index hlt).1]
      · rcases Nat.eq_or_lt_of_le (show t.rate_index ≤ j by omega) with h3 | h3
        · subst h3
          rw [hczero, hs.above t.rate_index (by omega)]
        · rw [hs.above j (by omega), ht.above j h3]
  · -- equal rate indices: totals force the active-tier attributions equal
    have heq : t.rate_index = s.rate_index := by omega
    have hceq : s.cursor.getD s.rate_index 0 = t.cursor.getD s.rate_index 0 := by
      rw [heq] at hd2
      omega
    refine list_eq_of_getD _ _ (by rw [hs.hcl, ht.hcl, hra]) ?_
    intro j hj
    rcases Nat.lt_or_ge j s.rate_index with h1 | h1
    · rw [(hs.below j h1).1, ← hli, (ht.below j (by omega)).1]
    · rcases Nat.eq_or_lt_of_le h1 with h2 | h2
      · subst h2
        exact hceq
      · rw [hs.above j h2, ht.above j (by omega)]

theorem cursor_det (s t : RoyaltyStack)
    (hra : t.rates = s.rates) (hli : t.limits = s.limits)
    (hw : WNonneg s) (hs : Inv s) (ht : Inv t)
    (hok_s : riOK s) (hok_t : riOK t)
    (hsum : s.cursor.sum = t.cursor.sum) : s.cursor = t.cursor := by
  by_cases hn : s.rates.length = 0
  · have h1 : s.cursor = [] := List.eq_nil_of_length_eq_zero (by rw [hs.hcl]; exact hn)
    have h2 : t.cursor = [] := List.eq_nil_of_length_eq_zero (by rw [ht.hcl, hra]; exact hn)
    rw [h1, h2]
  · have hrs : s.rate_index < s.rates.length := by
      rcases hok_s with h | h
      · omega
      · exact h
    have hrt : t.rate_index < t.rates.length := by
      rcases hok_t with h | h
      · rw [hra]; omega
      · exact h
    rcases Nat.le_total s.rate_index t.rate_index with hle | hle
    · exact cursor_det_le s t hra hli hw hs ht hrs hrt hle hsum
    · refine (cursor_det_le t s hra.symm hli.symm ?_ ht hs hrt
        hrs hle hsum.symm).symm
      intro j
      rw [hli]
      exact hw j

/-! ### Totality: with a 0-sentinel final tier, a call always succeeds and
yields at most one record per tier -/

theorem pushAux_total (fuel : Nat) :
    ∀ (s : RoyaltyStack) (c : Int),
      s.rate_index < s.rates.length →
      s.limits.getD (s.rates.length - 1) 0 = 0 →
      s.rates.length - s.rate_index ≤ fuel →
      ∃ out s', pushAux fuel s c = some (out, s') ∧
        out.length ≤ s.rates.length - s.rate_index := by
  induction fuel with
  | zero =>
    intro s c hri _ hfuel
    omega
  | succ fuel ih =>
    intro s c hri hlast hfuel
    by_cases hc : c ≤ 0
    · exact ⟨[], s, pushAux_nonpos _ _ _ hc, by simp⟩
    · rw [pushAux]
      rw [if_neg hc]
      cases hg : s.rates.get? s.rate_index with
      | none =>
        have := List.get?_eq_none.mp hg
        omega
      | some cr =>
        simp only [hg]
        by_cases hb : s.limits.getD s.rate_index 0 = 0 ∨
            s.cursor.getD s.rate_index 0 + c ≤ s.limits.getD s.rate_index 0
        · rw [if_pos hb]
          exact ⟨_, _, rfl, by simp; omega⟩
        · rw [if_neg hb]
          obtain ⟨hb1, _⟩ := not_or.mp hb
          have hri1 : s.rate_index + 1 < s.rates.length := by
            rcases Nat.eq_or_lt_of_le (Nat.succ_le_of_lt hri) with h | h
            · exfalso
              apply hb1
              have : s.rate_index = s.rates.length - 1 := by omega
              rw [this]
              exact hlast
            · exact h
          obtain ⟨out₂, s₂, heq, hlen⟩ := ih
            { s with
              rate_index := s.rate_index + 1
              cursor := s.cursor.set s.rate_index (s.limits.getD s.rate_index 0) }
            (c - (s.limits.getD s.rate_index 0 - s.cursor.getD s.rate_index 0))
            (by simpa using hri1) (by simpa using hlast) (by simp; omega)
          rw [heq]
          refine ⟨_, _, rfl, ?_⟩
          simp only [List.length_cons]
          simp only at hlen
          omega

theorem popAux_total (fuel : Nat) :
    ∀ (s : RoyaltyStack) (c : Int),
      s.rate_index < s.rates.length →
      s.rate_index + 1 ≤ fuel →
      ∃ out s', popAux fuel s c = some (out, s') ∧
        out.length ≤ s.rate_index + 1 := by
  induction fuel with
  | zero =>
    intro s c _ hfuel
    omega
  | succ fuel ih =>
    intro s c hri hfuel
    by_cases hc : c ≤ 0
    · exact ⟨[], s, popAux_nonpos _ _ _ hc, by simp⟩
    · rw [popAux]
      rw [if_neg hc]
      cases hg : s.rates.get? s.rate_index with
      | none =>
        have := List.get?_eq_none.mp hg
        omega
      | some cr =>
        simp only [hg]
        by_cases hb : s.rate_index = 0 ∨ 0 ≤ s.cursor.getD s.rate_index 0 - c
        · rw [if_pos hb]
          exact ⟨_, _, rfl, by simp⟩
        · rw [if_neg hb]
          obtain ⟨hb1, _⟩ := not_or.mp hb
          obtain ⟨out₂, s₂, heq, hlen⟩ := ih
            { s with
              rate_index := s.rate_index - 1
              cursor := s.cursor.set s.rate_index 0 }
            (c - s.cursor.getD s.rate_index 0)
            (by simp; omega) (by simp; omega)
          rw [heq]
          refine ⟨_, _, rfl, ?_⟩
          simp only [List.length_cons]
          simp only at hlen
          omega

theorem allocate_total (p : List Step) (hv : progression_is_valid p = true)
    (hne : p ≠ []) (hlast : (p.getD (p.length - 1) dStep).limit = 0)
    (s : RoyaltyStack) (hr : Reachable p s) (d : Int) :
    ∃ out s', s.allocate d = some (out, s') ∧ out.length ≤ p.length := by
  obtain ⟨hra, hli, hinv, hok⟩ := reachable_inv p hv s hr
  have hlen : s.rates.length = p.length := by rw [hra, List.length_map]
  have hnz : 0 < p.length := List.length_pos.mpr hne
  have hri : s.rate_index < s.rates.length := by
    rcases hok with h | h
    · omega
    · exact h
  have hlast_s : s.limits.getD (s.rates.length - 1) 0 = 0 := by
    rw [hli, hlen, initLimits_getD p _ (by omega), if_pos (Or.inr hlast)]
    exact hlast
  rw [RoyaltyStack.allocate]
  by_cases hd : d < 0
  · rw [if_pos hd, RoyaltyStack.pop]
    obtain ⟨out, s', heq, hb⟩ := popAux_total (s.rates.length + 1) s (-d) hri (by omega)
    refine ⟨out, s', heq, ?_⟩
    omega
  · rw [if_neg hd, RoyaltyStack.push]
    obtain ⟨out, s', heq, hb⟩ := pushAux_total (s.rates.length + 1) s d hri hlast_s (by omega)
    refine ⟨out, s', heq, ?_⟩
    omega

/-! ### Facts about `allocate` assembled from the push/pop lemmas -/

theorem allocate_reachable {p : List Step} {s : RoyaltyStack} {d : Int}
    {out : List (Int × Int)} {s' : RoyaltyStack} (hr : Reachable p s)
    (h : s.allocate d = some (out, s')) : Reachable p s' := by
  rw [RoyaltyStack.allocate] at h
  by_cases hd : d < 0
  · rw [if_pos hd] at h
    exact Reachable.pop hr h
  · rw [if_neg hd] at h
    exact Reachable.push hr h

theorem allocate_sum {s : RoyaltyStack} {d : Int} {out : List (Int × Int)}
    {s' : RoyaltyStack} (h : s.allocate d = some (out, s')) :
    (out.map Prod.fst).sum = d := by
  rw [RoyaltyStack.allocate] at h
  by_cases hd : d < 0
  · rw [if_pos hd, RoyaltyStack.pop] at h
    have := popAux_sum _ _ _ _ _ (by omega) h
    omega
  · rw [if_neg hd, RoyaltyStack.push] at h
    exact pushAux_sum _ _ _ _ _ (by omega) h

theorem allocate_cursor_sum {s : RoyaltyStack} {d : Int} {out : List (Int × Int)}
    {s' : RoyaltyStack} (hcl : s.cursor.length = s.rates.length)
    (h : s.allocate d = some (out, s')) :
    s'.cursor.sum = s.cursor.sum + d := by
  rw [RoyaltyStack.allocate] at h
  by_cases hd : d < 0
  · rw [if_pos hd, RoyaltyStack.pop] at h
    have := popAux_cursor_sum _ _ _ _ _ hcl (by omega) h
    omega
  · rw [if_neg hd, RoyaltyStack.push] at h
    have := pushAux_cursor_sum _ _ _ _ _ hcl (by omega) h
    omega

/-! ### Exactness of the embedded decimal arithmetic -/

theorem qpow_align (c e m : Int) (h : m ≤ e) :
    ((c * 10 ^ (e - m).toNat : ℤ) : ℚ) * (10 : ℚ) ^ m = (c : ℚ) * (10 : ℚ) ^ e := by
  push_cast
  rw [mul_assoc]
  congr 1
  rw [← zpow_natCast (10 : ℚ) (e - m).toNat, Int.toNat_of_nonneg (by omega),
    ← zpow_add₀ (by norm_num : (10 : ℚ) ≠ 0)]
  congr 1
  omega

theorem Dec.val_intMul (n : Int) (d : Dec) :
    (Dec.intMul n d).val = (n : ℚ) * d.val := by
  rw [Dec.intMul, Dec.val, Dec.val]
  push_cast
  ring

theorem Dec.val_div100 (d : Dec) : (Dec.div100 d).val = d.val / 100 := by
  rw [Dec.div100]
  split_ifs with h1 h2
  · obtain ⟨k, hk⟩ := Int.dvd_of_emod_eq_zero h1
    rw [Dec.val, Dec.val]
    simp only [hk]
    rw [Int.mul_ediv_cancel_left k (by norm_num)]
    push_cast
    ring
  · obtain ⟨k, hk⟩ := Int.dvd_of_emod_eq_zero h2
    rw [Dec.val, Dec.val]
    simp only [hk]
    rw [Int.mul_ediv_cancel_left k (by norm_num),
      zpow_sub₀ (by norm_num : (10 : ℚ) ≠ 0)]
    push_cast
    field_simp
    ring
  · rw [Dec.val, Dec.val]
    simp only
    rw [zpow_sub₀ (by norm_num : (10 : ℚ) ≠ 0)]
    norm_num
    ring

theorem Dec.val_sub (a b : Dec) : (a.sub b).val = a.val - b.val := by
  rw [Dec.sub, Dec.val, Dec.val, Dec.val]
  simp only
  rw [Int.cast_sub, sub_mul,
    qpow_align a.coeff a.exp (min a.exp b.exp) (min_le_left _ _),
    qpow_align b.coeff b.exp (min a.exp b.exp) (min_le_right _ _)]

theorem Dec.div100_exp (d : Dec) :
    d.exp - 2 ≤ (Dec.div100 d).exp ∧ (Dec.div100 d).exp ≤ d.exp := by
  rw [Dec.div100]
  split_ifs <;> constructor <;> simp <;> omega

/-! ## Claim theorems -/

/-- Claim C1: for every progression accepted as valid, every reachable
allocator state, and every integer delta, fully consuming one `allocate`
call (push for positive delta, pop for negative delta, nothing for zero)
yields quantities whose sum equals the input delta exactly. -/
theorem C1_allocate_conservation (p : List Step) (s : RoyaltyStack) (d : Int)
    (out : List (Int × Int)) (s' : RoyaltyStack)
    (hv : progression_is_valid p = true) (hr : Reachable p s)
    (h : s.allocate d = some (out, s')) :
    (out.map Prod.fst).sum = d :=
  allocate_sum h

theorem C1_allocate_conservation_witness :
    progression_is_valid roy = true ∧
    (RoyaltyStack.init roy).allocate 4999 =
      some ([((4999 : Int), (7 : Int))],
        ⟨[7, 8, 9], [5000, 5000, 0], 0, [4999, 0, 0]⟩) ∧
    (([((4999 : Int), (7 : Int))]).map Prod.fst).sum = 4999 :=
  ⟨by decide, by decide,
    C1_allocate_conservation roy (RoyaltyStack.init roy) 4999
      [((4999 : Int), (7 : Int))] ⟨[7, 8, 9], [5000, 5000, 0], 0, [4999, 0, 0]⟩
      (by decide) Reachable.init (by decide)⟩

/-- Claim C2 as stated is false: from the reachable state sitting exactly on
the tier-0 boundary (after `allocate(5000)` from fresh), `allocate(3)`
followed by `allocate(-3)` restores every attribution but leaves the active
tier index (`_rate_index`, the spec's cursor) at 1 instead of 0. -/
theorem C2_roundtrip_counterexample :
    progression_is_valid roy = true ∧
    Reachable roy (⟨[7, 8, 9], [5000, 5000, 0], 0, [5000, 0, 0]⟩ : RoyaltyStack) ∧
    RoyaltyStack.allocate ⟨[7, 8, 9], [5000, 5000, 0], 0, [5000, 0, 0]⟩ 3 =
      some ([(0, 7), (3, 8)], ⟨[7, 8, 9], [5000, 5000, 0], 1, [5000, 3, 0]⟩) ∧
    RoyaltyStack.allocate ⟨[7, 8, 9], [5000, 5000, 0], 1, [5000, 3, 0]⟩ (-3) =
      some ([(-3, 8)], ⟨[7, 8, 9], [5000, 5000, 0], 1, [5000, 0, 0]⟩) ∧
    (⟨[7, 8, 9], [5000, 5000, 0], 1, [5000, 0, 0]⟩ : RoyaltyStack).rate_index ≠
      (⟨[7, 8, 9], [5000, 5000, 0], 0, [5000, 0, 0]⟩ : RoyaltyStack).rate_index :=
  ⟨by decide,
    Reachable.push Reachable.init
      (by decide : (RoyaltyStack.init roy).push 5000 =
        some ([(5000, 7)], ⟨[7, 8, 9], [5000, 5000, 0], 0, [5000, 0, 0]⟩)),
    by decide, by decide, by decide⟩

/-- Claim C2 (amended): for every valid progression, every reachable
allocator state, and every integer `d`, performing `allocate(d)` and then
immediately `allocate(-d)` (fully consuming both result sequences) returns
every tier's attribution to exactly the value it had before the
`allocate(d)` call; the active tier index may differ (only at an exact tier
boundary, as in the counterexample). -/
theorem C2_roundtrip_attributions (p : List Step) (s s₁ s₂ : RoyaltyStack)
    (d : Int) (o₁ o₂ : List (Int × Int))
    (hv : progression_is_valid p = true) (hr : Reachable p s)
    (h₁ : s.allocate d = some (o₁, s₁)) (h₂ : s₁.allocate (-d) = some (o₂, s₂)) :
    s₂.cursor = s.cursor := by
  have hr1 : Reachable p s₁ := allocate_reachable hr h₁
  have hr2 : Reachable p s₂ := allocate_reachable hr1 h₂
  obtain ⟨hra, hli, hinv, hok⟩ := reachable_inv p hv s hr
  obtain ⟨hra1, hli1, hinv1, hok1⟩ := reachable_inv p hv s₁ hr1
  obtain ⟨hra2, hli2, hinv2, hok2⟩ := reachable_inv p hv s₂ hr2
  have hT1 := allocate_cursor_sum hinv.hcl h₁
  have hT2 := allocate_cursor_sum hinv1.hcl h₂
  exact cursor_det s₂ s (by rw [hra, hra2]) (by rw [hli, hli2])
    (wnonneg_of_limits p s₂ hv hli2) hinv2 hinv hok2 hok (by omega)

theorem C2_roundtrip_attributions_witness :
    progression_is_valid roy = true ∧
    (RoyaltyStack.init roy).allocate 12500 =
      some ([(5000, 7), (5000, 8), (2500, 9)],
        ⟨[7, 8, 9], [5000, 5000, 0], 2, [5000, 5000, 2500]⟩) ∧
    RoyaltyStack.allocate ⟨[7, 8, 9], [5000, 5000, 0], 2, [5000, 5000, 2500]⟩ (-12500) =
      some ([(-2500, 9), (-5000, 8), (-5000, 7)],
        ⟨[7, 8, 9], [5000, 5000, 0], 0, [0, 0, 0]⟩) ∧
    (⟨[7, 8, 9], [5000, 5000, 0], 0, [0, 0, 0]⟩ : RoyaltyStack).cursor =
      (RoyaltyStack.init roy).cursor :=
  ⟨by decide, by decide, by decide,
    C2_roundtrip_attributions roy (RoyaltyStack.init roy)
      ⟨[7, 8, 9], [5000, 5000, 0], 2, [5000, 5000, 2500]⟩
      ⟨[7, 8, 9], [5000, 5000, 0], 0, [0, 0, 0]⟩ 12500
      [(5000, 7), (5000, 8), (2500, 9)] [(-2500, 9), (-5000, 8), (-5000, 7)]
      (by decide) Reachable.init (by decide) (by decide)⟩

/-- Claim C3 names a code bug: `progression_is_valid` checks the `i == 0`
branch before the last-step branch, so a single-tier progression with a
non-zero final limit — here `[Step(7, 5000)]` — is accepted, and `Right`
construction succeeds, contradicting the claim (and the function's own
docstring, which requires the last step's limit to be zero). -/
theorem C3_single_tier_nonzero_limit_accepted :
    progression_is_valid [(⟨7, 5000⟩ : Step)] = true ∧
    Right.make "trade volume" [(⟨7, 5000⟩ : Step)] =
      some ⟨"trade volume", [⟨7, 5000⟩], RoyaltyStack.init [⟨7, 5000⟩]⟩ :=
  ⟨by decide, rfl⟩

/-- Claim C4 as stated is false: the single-tier progression
`[Step(7, 5000)]` is accepted as valid, its initial state is reachable, and
fully consuming `allocate(6000)` raises `IndexError` in the source (the
rate-index lookup runs past the last tier), embedded as `none`. -/
theorem C4_counterexample :
    progression_is_valid [(⟨7, 5000⟩ : Step)] = true ∧
    Reachable [(⟨7, 5000⟩ : Step)] (RoyaltyStack.init [⟨7, 5000⟩]) ∧
    (RoyaltyStack.init [(⟨7, 5000⟩ : Step)]).allocate 6000 = none :=
  ⟨by decide, Reachable.init, by decide⟩

/-- Claim C4 (amended): for every allocator constructed from an accepted,
non-empty progression whose final tier carries the 0 ("unbounded") sentinel
limit, every reachable state and every integer delta, `allocate` runs to
completion without error and yields a finite sequence of at most
`number_of_tiers` records (and `reset` is total by construction). -/
theorem C4_allocate_total (p : List Step) (hv : progression_is_valid p = true)
    (hne : p ≠ []) (hlast : (p.getD (p.length - 1) dStep).limit = 0)
    (s : RoyaltyStack) (hr : Reachable p s) (d : Int) :
    ∃ out s', s.allocate d = some (out, s') ∧ out.length ≤ p.length :=
  allocate_total p hv hne hlast s hr d

theorem C4_allocate_total_witness :
    progression_is_valid roy = true ∧ roy ≠ [] ∧
    (roy.getD (roy.length - 1) dStep).limit = 0 ∧
    (∃ out s', (RoyaltyStack.init roy).allocate 12500 = some (out, s') ∧
      out.length ≤ roy.length) :=
  ⟨by decide, by decide, by decide,
    C4_allocate_total roy (by decide) (by decide) (by decide) _ Reachable.init 12500⟩

/-- Claim C5: with the progression `[(7,5000),(8,10000),(9,0)]` starting
from the initial state, `allocate(4999)` yields exactly `[(4999,7)]`; a
subsequent `allocate(5002)` yields exactly `[(1,7),(5000,8),(1,9)]`; a
subsequent `allocate(7000)` yields exactly `[(7000,9)]`. -/
theorem C5_boundary_exactness :
    (RoyaltyStack.init roy).allocate 4999 =
      some ([(4999, 7)], ⟨[7, 8, 9], [5000, 5000, 0], 0, [4999, 0, 0]⟩) ∧
    RoyaltyStack.allocate ⟨[7, 8, 9], [5000, 5000, 0], 0, [4999, 0, 0]⟩ 5002 =
      some ([(1, 7), (5000, 8), (1, 9)],
        ⟨[7, 8, 9], [5000, 5000, 0], 2, [5000, 5000, 1]⟩) ∧
    RoyaltyStack.allocate ⟨[7, 8, 9], [5000, 5000, 0], 2, [5000, 5000, 1]⟩ 7000 =
      some ([(7000, 9)], ⟨[7, 8, 9], [5000, 5000, 0], 2, [5000, 5000, 7001]⟩) :=
  ⟨by decide, by decide, by decide⟩

/-- Claim C6: starting fresh on `[(7,5000),(8,10000),(9,0)]`,
`allocate(-500)` yields exactly `[(-500,7)]` leaving tier 0's attribution at
-500 with no error, and a following `allocate(5500)` yields exactly
`[(5500,7)]`, leaving tier 0's attribution at 5000 and the active tier
index at 0. -/
theorem C6_negative_attribution :
    (RoyaltyStack.init roy).allocate (-500) =
      some ([(-500, 7)], ⟨[7, 8, 9], [5000, 5000, 0], 0, [-500, 0, 0]⟩) ∧
    (⟨[7, 8, 9], [5000, 5000, 0], 0, [-500, 0, 0]⟩ : RoyaltyStack).cursor.getD 0 0 = -500 ∧
    RoyaltyStack.allocate ⟨[7, 8, 9], [5000, 5000, 0], 0, [-500, 0, 0]⟩ 5500 =
      some ([(5500, 7)], ⟨[7, 8, 9], [5000, 5000, 0], 0, [5000, 0, 0]⟩) ∧
    (⟨[7, 8, 9], [5000, 5000, 0], 0, [5000, 0, 0]⟩ : RoyaltyStack).cursor.getD 0 0 = 5000 ∧
    (⟨[7, 8, 9], [5000, 5000, 0], 0, [5000, 0, 0]⟩ : RoyaltyStack).rate_index = 0 :=
  ⟨by decide, by decide, by decide, by decide, by decide⟩

/-- Claim C7: for every allocator constructed from a valid progression and
every state reachable by fully-consumed push, pop and reset operations:
every tier strictly below the active index is attributed exactly its width,
every tier strictly above it is attributed exactly 0, and the active tier's
attribution is at most its width whenever that width is finite
(non-sentinel). -/
theorem C7_state_invariant (p : List Step) (s : RoyaltyStack)
    (hv : progression_is_valid p = true) (hr : Reachable p s) :
    ∀ j, j < s.rates.length →
      (j < s.rate_index → s.cursor.getD j 0 = s.limits.getD j 0) ∧
      (s.rate_index < j → s.cursor.getD j 0 = 0) ∧
      (j = s.rate_index → s.limits.getD j 0 ≠ 0 →
        s.cursor.getD j 0 ≤ s.limits.getD j 0) := by
  obtain ⟨_, _, hinv, _⟩ := reachable_inv p hv s hr
  intro j _
  refine ⟨fun hj => (hinv.below j hj).1, fun hj => hinv.above j hj, fun hj => ?_⟩
  subst hj
  exact hinv.at_le

theorem C7_state_invariant_witness :
    progression_is_valid roy = true ∧
    (⟨[7, 8, 9], [5000, 5000, 0], 2, [5000, 5000, 2500]⟩ : RoyaltyStack).cursor.getD 0 0 =
      (⟨[7, 8, 9], [5000, 5000, 0], 2, [5000, 5000, 2500]⟩ : RoyaltyStack).limits.getD 0 0 :=
  ⟨by decide,
    (C7_state_invariant roy ⟨[7, 8, 9], [5000, 5000, 0], 2, [5000, 5000, 2500]⟩
      (by decide)
      (Reachable.push Reachable.init
        (by decide : (RoyaltyStack.init roy).push 12500 =
          some ([(5000, 7), (5000, 8), (2500, 9)],
            ⟨[7, 8, 9], [5000, 5000, 0], 2, [5000, 5000, 2500]⟩)))
      0 (by decide)).1 (by decide)⟩

/-- Claim C8's same-precision clause is false on the code's own test data:
applying the first trade-volume test statement (price `28.40`, two decimal
places) yields an amount-due of `284.284` — three decimal places, not two.
The value itself is exact (`143 × 7 × 28.40 / 100`). -/
theorem C8_precision_counterexample :
    Right.apply_statement ⟨"trade volume", roy, RoyaltyStack.init roy⟩
        ⟨20160630, 143, ⟨2840, -2⟩, "trade volume"⟩ =
      some ([⟨20160630, "trade volume", 143, "7%", ⟨2840, -2⟩, none, ⟨284284, -3⟩⟩],
        ⟨"trade volume", roy, ⟨[7, 8, 9], [5000, 5000, 0], 0, [143, 0, 0]⟩⟩) ∧
    (⟨284284, -3⟩ : Dec).exp ≠ (⟨2840, -2⟩ : Dec).exp :=
  ⟨by decide, by decide⟩

/-- Claim C8 (amended): for every statement applied through a Right, each
yielded report line's amount-due equals quantity × rate × unit-price / 100
exactly, as a rational number (exact decimal arithmetic, no floating-point
rounding); its exponent lies between the price's exponent minus two and the
price's exponent, i.e. the result carries the precision of the exact
quotient after trailing-zero reduction, which can exceed the input price's
precision by up to two decimal places. -/
theorem C8_due_exact_decimal (r : Right) (stmt : Statement)
    (items : List ReportItem) (r' : Right)
    (h : r.apply_statement stmt = some (items, r')) :
    ∃ pairs rs, r.royalty_stack.allocate stmt.copies = some (pairs, rs) ∧
      items.length = pairs.length ∧
      ∀ i (hi : i < items.length) (hp : i < pairs.length),
        (items.get ⟨i, hi⟩).copies = (pairs.get ⟨i, hp⟩).1 ∧
        (items.get ⟨i, hi⟩).due.val =
          ((pairs.get ⟨i, hp⟩).1 : ℚ) * ((pairs.get ⟨i, hp⟩).2 : ℚ) *
            stmt.price.val / 100 ∧
        stmt.price.exp - 2 ≤ (items.get ⟨i, hi⟩).due.exp ∧
        (items.get ⟨i, hi⟩).due.exp ≤ stmt.price.exp := by
  rw [Right.apply_statement] at h
  cases hg : r.royalty_stack.allocate stmt.copies with
  | none => rw [hg] at h; simp at h
  | some pr =>
    obtain ⟨pairs, rs⟩ := pr
    rw [hg] at h
    simp only [Option.some.injEq, Prod.mk.injEq] at h
    obtain ⟨hitems, _⟩ := h
    subst hitems
    refine ⟨pairs, rs, rfl, by simp, ?_⟩
    intro i hi hp
    rw [List.get_map]
    refine ⟨rfl, ?_, ?_, ?_⟩
    · simp only
      rw [Dec.val_div100, Dec.val_intMul]
      push_cast
      ring
    · exact (Dec.div100_exp _).1
    · exact (Dec.div100_exp _).2

theorem C8_due_exact_decimal_witness :
    Right.apply_statement ⟨"trade volume", roy, RoyaltyStack.init roy⟩
        ⟨20160630, 143, ⟨2840, -2⟩, "trade volume"⟩ =
      some ([⟨20160630, "trade volume", 143, "7%", ⟨2840, -2⟩, none, ⟨284284, -3⟩⟩],
        ⟨"trade volume", roy, ⟨[7, 8, 9], [5000, 5000, 0], 0, [143, 0, 0]⟩⟩) ∧
    (∃ pairs rs,
      (⟨"trade volume", roy, RoyaltyStack.init roy⟩ : Right).royalty_stack.allocate
        (⟨20160630, 143, ⟨2840, -2⟩, "trade volume"⟩ : Statement).copies =
          some (pairs, rs) ∧
      ([(⟨20160630, "trade volume", 143, "7%", ⟨2840, -2⟩, none,
          ⟨284284, -3⟩⟩ : ReportItem)]).length = pairs.length ∧
      ∀ i (hi : i < ([(⟨20160630, "trade volume", 143, "7%", ⟨2840, -2⟩, none,
            ⟨284284, -3⟩⟩ : ReportItem)]).length) (hp : i < pairs.length),
        (([(⟨20160630, "trade volume", 143, "7%", ⟨2840, -2⟩, none,
            ⟨284284, -3⟩⟩ : ReportItem)]).get ⟨i, hi⟩).copies = (pairs.get ⟨i, hp⟩).1 ∧
        (([(⟨20160630, "trade volume", 143, "7%", ⟨2840, -2⟩, none,
            ⟨284284, -3⟩⟩ : ReportItem)]).get ⟨i, hi⟩).due.val =
          ((pairs.get ⟨i, hp⟩).1 : ℚ) * ((pairs.get ⟨i, hp⟩).2 : ℚ) *
            (⟨2840, -2⟩ : Dec).val / 100 ∧
        (⟨2840, -2⟩ : Dec).exp - 2 ≤
          (([(⟨20160630, "trade volume", 143, "7%", ⟨2840, -2⟩, none,
            ⟨284284, -3⟩⟩ : ReportItem)]).get ⟨i, hi⟩).due.exp ∧
        (([(⟨20160630, "trade volume", 143, "7%", ⟨2840, -2⟩, none,
            ⟨284284, -3⟩⟩ : ReportItem)]).get ⟨i, hi⟩).due.exp ≤
          (⟨2840, -2⟩ : Dec).exp) :=
  ⟨by decide,
    C8_due_exact_decimal ⟨"trade volume", roy, RoyaltyStack.init roy⟩
      ⟨20160630, 143, ⟨2840, -2⟩, "trade volume"⟩
      [⟨20160630, "trade volume", 143, "7%", ⟨2840, -2⟩, none, ⟨284284, -3⟩⟩]
      ⟨"trade volume", roy, ⟨[7, 8, 9], [5000, 5000, 0], 0, [143, 0, 0]⟩⟩
      (by decide)⟩

/-! ### Bookkeeping lemmas for the ledger layer -/

theorem attachAdvance_length (adv : Dec) (items : List ReportItem) :
    (attachAdvance adv items).1.length = items.length := by
  induction items generalizing adv with
  | nil => rfl
  | cons it rest ih => simp [attachAdvance, ih]

theorem attachAdvance_due (adv : Dec) (items : List ReportItem) :
    (attachAdvance adv items).1.map (fun it => it.due) =
      items.map (fun it => it.due) := by
  induction items generalizing adv with
  | nil => rfl
  | cons it rest ih => simp [attachAdvance, ih]

theorem attachAdvance_date (adv : Dec) (items : List ReportItem) :
    (attachAdvance adv items).1.map (fun it => it.date) =
      items.map (fun it => it.date) := by
  induction items generalizing adv with
  | nil => rfl
  | cons it rest ih => simp [attachAdvance, ih]

theorem attachAdvance_final (adv : Dec) (items : List ReportItem) :
    (attachAdvance adv items).2.val =
      adv.val - ((items.map fun it => it.due.val).sum) := by
  induction items generalizing adv with
  | nil => simp [attachAdvance]
  | cons it rest ih =>
    simp only [attachAdvance, List.map_cons, List.sum_cons]
    rw [ih, Dec.val_sub]
    ring

theorem attachAdvance_adv (adv : Dec) (items : List ReportItem) :
    ∀ n (hn : n < (attachAdvance adv items).1.length),
      ((attachAdvance adv items).1.get ⟨n, hn⟩).advance_left.map Dec.val =
        some (adv.val -
          ((((attachAdvance adv items).1.take (n + 1)).map fun it => it.due.val).sum)) := by
  induction items generalizing adv with
  | nil => intro n hn; simp [attachAdvance] at hn
  | cons it rest ih =>
    intro n hn
    cases n with
    | zero =>
      simp [attachAdvance, Dec.val_sub]
    | succ n =>
      have hn2 : n < (attachAdvance (adv.sub it.due) rest).1.length := by
        simp only [attachAdvance, List.length_cons] at hn
        omega
      have := ih (adv.sub it.due) n hn2
      simp only [attachAdvance, List.get, List.take_succ_cons, List.map_cons, List.sum_cons]
      rw [this, Dec.val_sub]
      congr 1
      ring

theorem apply_statement_dates {r : Right} {stmt : Statement}
    {items : List ReportItem} {r' : Right}
    (h : r.apply_statement stmt = some (items, r')) :
    ∀ it ∈ items, it.date = stmt.date := by
  rw [Right.apply_statement] at h
  cases hg : r.royalty_stack.allocate stmt.copies with
  | none => rw [hg] at h; simp at h
  | some pr =>
    obtain ⟨pairs, rs⟩ := pr
    rw [hg] at h
    simp only [Option.some.injEq, Prod.mk.injEq] at h
    obtain ⟨hitems, _⟩ := h
    subst hitems
    intro it hit
    obtain ⟨pr, _, hpr⟩ := List.mem_map.mp hit
    rw [← hpr]

theorem pairwise_le_of_all_eq (l : List Int) (c : Int) (h : ∀ x ∈ l, x = c) :
    List.Pairwise (fun x y => x ≤ y) l := by
  induction l with
  | nil => exact List.Pairwise.nil
  | cons x xs ih =>
    refine List.Pairwise.cons ?_ (ih fun y hy => h y (List.mem_cons_of_mem x hy))
    intro y hy
    rw [h x (List.mem_cons_self x xs), h y (List.mem_cons_of_mem x hy)]

theorem processStatements_mem_date :
    ∀ (stmts : List Statement) (rights : List (String × Right)) (adv : Dec)
      (items : List ReportItem) (rights2 : List (String × Right)) (advF : Dec),
      processStatements rights adv stmts = some (items, rights2, advF) →
      ∀ it ∈ items, ∃ st ∈ stmts, it.date = st.date := by
  intro stmts
  induction stmts with
  | nil =>
    intro rights adv items rights2 advF h
    rw [processStatements] at h
    simp only [Option.some.injEq, Prod.mk.injEq] at h
    rw [← h.1]
    intro it hit
    simp at hit
  | cons stmt rest ih =>
    intro rights adv items rights2 advF h
    rw [processStatements] at h
    cases hl : lookupRight rights stmt.name with
    | none => rw [hl] at h; simp at h
    | some r =>
      rw [hl] at h
      simp only at h
      cases ha : r.apply_statement stmt with
      | none => rw [ha] at h; simp at h
      | some pr =>
        obtain ⟨items₀, r'⟩ := pr
        rw [ha] at h
        simp only at h
        cases hp : processStatements (setRight rights stmt.name r')
            (attachAdvance adv items₀).2 rest with
        | none => rw [hp] at h; simp at h
        | some tr =>
          obtain ⟨out, rights3, advF3⟩ := tr
          rw [hp] at h
          simp only [Option.some.injEq, Prod.mk.injEq] at h
          obtain ⟨hitems, _⟩ := h
          rw [← hitems]
          intro it hit
          rcases List.mem_append.mp hit with hmem | hmem
          · refine ⟨stmt, List.mem_cons_self _ _, ?_⟩
            have hdate : it.date ∈ (attachAdvance adv items₀).1.map (fun x => x.date) :=
              List.mem_map_of_mem _ hmem
            rw [attachAdvance_date] at hdate
            obtain ⟨it₀, hit₀, hd⟩ := List.mem_map.mp hdate
            rw [← hd]
            exact apply_statement_dates ha it₀ hit₀
          · obtain ⟨st, hst, hd⟩ := ih _ _ _ _ _ hp it hmem
            exact ⟨st, List.mem_cons_of_mem _ hst, hd⟩

theorem processStatements_advance :
    ∀ (stmts : List Statement) (rights : List (String × Right)) (adv : Dec)
      (items : List ReportItem) (rights2 : List (String × Right)) (advF : Dec),
      processStatements rights adv stmts = some (items, rights2, advF) →
      ∀ n (hn : n < items.length),
        ((items.get ⟨n, hn⟩).advance_left).map Dec.val =
          some (adv.val - (((items.take (n + 1)).map fun it => it.due.val).sum)) := by
  intro stmts
  induction stmts with
  | nil =>
    intro rights adv items rights2 advF h
    rw [processStatements] at h
    simp only [Option.some.injEq, Prod.mk.injEq] at h
    obtain ⟨h1, _⟩ := h
    subst h1
    intro n hn
    simp at hn
  | cons stmt rest ih =>
    intro rights adv items rights2 advF h
    rw [processStatements] at h
    cases hl : lookupRight rights stmt.name with
    | none => rw [hl] at h; simp at h
    | some r =>
      rw [hl] at h
      simp only at h
      cases ha : r.apply_statement stmt with
      | none => rw [ha] at h; simp at h
      | some pr =>
        obtain ⟨items₀, r'⟩ := pr
        rw [ha] at h
        simp only at h
        cases hp : processStatements (setRight rights stmt.name r')
            (attachAdvance adv items₀).2 rest with
        | none => rw [hp] at h; simp at h
        | some tr =>
          obtain ⟨out, rights3, advF3⟩ := tr
          rw [hp] at h
          simp only [Option.some.injEq, Prod.mk.injEq] at h
          obtain ⟨hitems, _⟩ := h
          subst hitems
          intro n hn
          by_cases hc : n < (attachAdvance adv items₀).1.length
          · rw [List.get_append n hc,
              List.take_append_of_le_length (by omega)]
            exact attachAdvance_adv adv items₀ n hc
          · have hc2 : (attachAdvance adv items₀).1.length ≤ n := by omega
            have hn2 : n - (attachAdvance adv items₀).1.length < out.length := by
              rw [List.length_append] at hn
              omega
            rw [List.get_append_right _ _ hc2]
            have hih := ih _ _ _ _ _ hp (n - (attachAdvance adv items₀).1.length) hn2
            rw [hih]
            congr 1
            rw [attachAdvance_final adv items₀]
            have hdues : ((attachAdvance adv items₀).1.map fun it => it.due.val) =
                items₀.map fun it => it.due.val := by
              have := attachAdvance_due adv items₀
              calc ((attachAdvance adv items₀).1.map fun it => it.due.val)
                  = ((attachAdvance adv items₀).1.map fun it => it.due).map Dec.val := by
                    rw [List.map_map]; rfl
                _ = (items₀.map fun it => it.due).map Dec.val := by rw [this]
                _ = items₀.map fun it => it.due.val := by rw [List.map_map]; rfl
            rw [List.take_append_eq_append_take,
              List.take_of_length_le (by omega : (attachAdvance adv items₀).1.length ≤ n + 1),
              List.map_append, List.sum_append, hdues,
              show n + 1 - (attachAdvance adv items₀).1.length =
                n - (attachAdvance adv items₀).1.length + 1 by omega]
            ring

theorem processStatements_dates :
    ∀ (stmts : List Statement) (rights : List (String × Right)) (adv : Dec)
      (items : List ReportItem) (rights2 : List (String × Right)) (advF : Dec),
      processStatements rights adv stmts = some (items, rights2, advF) →
      List.Pairwise dateLe stmts →
      List.Pairwise (fun x y => x ≤ y) (items.map fun it => it.date) := by
  intro stmts
  induction stmts with
  | nil =>
    intro rights adv items rights2 advF h _
    rw [processStatements] at h
    simp only [Option.some.injEq, Prod.mk.injEq] at h
    rw [← h.1]
    exact List.Pairwise.nil
  | cons stmt rest ih =>
    intro rights adv items rights2 advF h hsorted
    rw [processStatements] at h
    cases hl : lookupRight rights stmt.name with
    | none => rw [hl] at h; simp at h
    | some r =>
      rw [hl] at h
      simp only at h
      cases ha : r.apply_statement stmt with
      | none => rw [ha] at h; simp at h
      | some pr =>
        obtain ⟨items₀, r'⟩ := pr
        rw [ha] at h
        simp only at h
        cases hp : processStatements (setRight rights stmt.name r')
            (attachAdvance adv items₀).2 rest with
        | none => rw [hp] at h; simp at h
        | some tr =>
          obtain ⟨out, rights3, advF3⟩ := tr
          rw [hp] at h
          simp only [Option.some.injEq, Prod.mk.injEq] at h
          obtain ⟨hitems, _⟩ := h
          subst hitems
          rw [List.pairwise_cons] at hsorted
          obtain ⟨hhead, hrest⟩ := hsorted
          rw [List.map_append, List.pairwise_append]
          have hfirst : ∀ x ∈ (attachAdvance adv items₀).1.map (fun it => it.date),
              x = stmt.date := by
            intro x hx
            rw [attachAdvance_date] at hx
            obtain ⟨it₀, hit₀, hd⟩ := List.mem_map.mp hx
            rw [← hd]
            exact apply_statement_dates ha it₀ hit₀
          refine ⟨pairwise_le_of_all_eq _ stmt.date hfirst, ih _ _ _ _ _ hp hrest, ?_⟩
          intro x hx y hy
          rw [hfirst x hx]
          obtain ⟨it, hit, hd⟩ := List.mem_map.mp hy
          obtain ⟨st, hst, hd2⟩ := processStatements_mem_date _ _ _ _ _ _ hp it hit
          rw [← hd, hd2]
          exact hhead st hst

/-! ### Re-running the ledger: sorting and resetting make it repeatable -/

theorem allocate_static {s : RoyaltyStack} {d : Int} {out : List (Int × Int)}
    {s' : RoyaltyStack} (h : s.allocate d = some (out, s')) :
    s'.rates = s.rates ∧ s'.limits = s.limits ∧ s'.cursor.length = s.cursor.length := by
  rw [RoyaltyStack.allocate] at h
  by_cases hd : d < 0
  · rw [if_pos hd, RoyaltyStack.pop] at h
    exact popAux_static _ _ _ _ _ h
  · rw [if_neg hd, RoyaltyStack.push] at h
    exact pushAux_static _ _ _ _ _ h

theorem apply_statement_reset {r : Right} {stmt : Statement}
    {items : List ReportItem} {r' : Right}
    (h : r.apply_statement stmt = some (items, r')) : r'.reset = r.reset := by
  rw [Right.apply_statement] at h
  cases hg : r.royalty_stack.allocate stmt.copies with
  | none => rw [hg] at h; simp at h
  | some pr =>
    obtain ⟨pairs, rs⟩ := pr
    rw [hg] at h
    simp only [Option.some.injEq, Prod.mk.injEq] at h
    obtain ⟨_, hr2⟩ := h
    obtain ⟨hra, hli, _⟩ := allocate_static hg
    rw [← hr2, Right.reset, Right.reset]
    simp [RoyaltyStack.reset, hra, hli]

theorem reset_rights_setRight :
    ∀ (rights : List (String × Right)) (k : String) (r₀ r₁ : Right),
      lookupRight rights k = some r₀ → r₁.reset = r₀.reset →
      reset_rights (setRight rights k r₁) = reset_rights rights := by
  intro rights
  induction rights with
  | nil =>
    intro k r₀ r₁ hl _
    rw [lookupRight] at hl
    simp at hl
  | cons entry rest ih =>
    intro k r₀ r₁ hl he
    obtain ⟨n, v⟩ := entry
    rw [lookupRight] at hl
    rw [setRight]
    by_cases hk : n = k
    · rw [if_pos hk] at hl ⊢
      simp only [Option.some.injEq] at hl
      subst hl
      simp [reset_rights, he]
    · rw [if_neg hk] at hl ⊢
      simp only [reset_rights, List.map_cons]
      have := ih k r₀ r₁ hl he
      simp only [reset_rights] at this
      rw [this]

theorem processStatements_reset :
    ∀ (stmts : List Statement) (rights : List (String × Right)) (adv : Dec)
      (items : List ReportItem) (rights2 : List (String × Right)) (advF : Dec),
      processStatements rights adv stmts = some (items, rights2, advF) →
      reset_rights rights2 = reset_rights rights := by
  intro stmts
  induction stmts with
  | nil =>
    intro rights adv items rights2 advF h
    rw [processStatements] at h
    simp only [Option.some.injEq, Prod.mk.injEq] at h
    rw [← h.2.1]
  | cons stmt rest ih =>
    intro rights adv items rights2 advF h
    rw [processStatements] at h
    cases hl : lookupRight rights stmt.name with
    | none => rw [hl] at h; simp at h
    | some r =>
      rw [hl] at h
      simp only at h
      cases ha : r.apply_statement stmt with
      | none => rw [ha] at h; simp at h
      | some pr =>
        obtain ⟨items₀, r'⟩ := pr
        rw [ha] at h
        simp only at h
        cases hp : processStatements (setRight rights stmt.name r')
            (attachAdvance adv items₀).2 rest with
        | none => rw [hp] at h; simp at h
        | some tr =>
          obtain ⟨out, rights3, advF3⟩ := tr
          rw [hp] at h
          simp only [Option.some.injEq, Prod.mk.injEq] at h
          obtain ⟨_, hr3, _⟩ := h
          rw [← hr3, ih _ _ _ _ _ hp]
          exact reset_rights_setRight rights stmt.name r r' hl (apply_statement_reset ha)

theorem stack_reset_twice (s : RoyaltyStack) : s.reset.reset = s.reset := rfl

theorem right_reset_twice (r : Right) : r.reset.reset = r.reset := rfl

theorem reset_rights_idem (rights : List (String × Right)) :
    reset_rights (reset_rights rights) = reset_rights rights := by
  induction rights with
  | nil => rfl
  | cons entry rest ih =>
    obtain ⟨n, v⟩ := entry
    simp only [reset_rights, List.map_cons] at ih ⊢
    rw [right_reset_twice, ih]

theorem sort_statements_idem (l : List Statement) :
    sort_statements (sort_statements l) = sort_statements l :=
  List.Sorted.insertionSort_eq (List.sorted_insertionSort dateLe l)

/-- Claim C9: `apply_statements` first sorts the stored statements into
nondecreasing date order and resets every right's allocator (both are part
of the embedded definition), then processes them in that order; the n-th
yielded item's `advance_left` equals the agreement's advance minus the sum
of the due amounts of the first n yielded items (as exact decimal values),
and the yielded items' dates are nondecreasing. -/
theorem C9_advance_ledger (a : Agreement) (items : List ReportItem) (a' : Agreement)
    (h : a.apply_statements = some (items, a')) :
    (∀ n (hn : n < items.length),
      ((items.get ⟨n, hn⟩).advance_left).map Dec.val =
        some (a.advance.val - (((items.take (n + 1)).map fun it => it.due.val).sum))) ∧
    List.Pairwise (fun x y => x ≤ y) (items.map fun it => it.date) := by
  rw [Agreement.apply_statements] at h
  cases hp : processStatements (reset_rights a.rights) a.advance
      (sort_statements a.statements) with
  | none => rw [hp] at h; simp at h
  | some tr =>
    obtain ⟨items1, rights2, advF⟩ := tr
    rw [hp] at h
    simp only [Option.some.injEq, Prod.mk.injEq] at h
    obtain ⟨hi, _⟩ := h
    subst hi
    refine ⟨processStatements_advance _ _ _ _ _ _ hp,
      processStatements_dates _ _ _ _ _ _ hp ?_⟩
    exact List.sorted_insertionSort dateLe a.statements

/-- Claim C10: running `apply_statements` twice in succession (fully
consuming both results) produces two identical item sequences — the second
run re-sorts the (already sorted) statements and resets the allocator state
left behind by the first run. -/
theorem C10_apply_statements_repeatable (a : Agreement)
    (items items₂ : List ReportItem) (a' a'' : Agreement)
    (h₁ : a.apply_statements = some (items, a'))
    (h₂ : a'.apply_statements = some (items₂, a'')) :
    items₂ = items := by
  rw [Agreement.apply_statements] at h₁
  cases hp₁ : processStatements (reset_rights a.rights) a.advance
      (sort_statements a.statements) with
  | none => rw [hp₁] at h₁; simp at h₁
  | some tr =>
    obtain ⟨items1, rights2, advF⟩ := tr
    rw [hp₁] at h₁
    simp only [Option.some.injEq, Prod.mk.injEq] at h₁
    obtain ⟨hi, ha'⟩ := h₁
    subst hi
    subst ha'
    rw [Agreement.apply_statements] at h₂
    rw [sort_statements_idem, processStatements_reset _ _ _ _ _ _ hp₁,
      reset_rights_idem, hp₁] at h₂
    simp only [Option.some.injEq, Prod.mk.injEq] at h₂
    exact h₂.1.symm

theorem C9_advance_ledger_witness :
    agW.apply_statements = some (itemsW, agW2) ∧
    ((itemsW.get ⟨1, by decide⟩).advance_left).map Dec.val =
      some (agW.advance.val - (((itemsW.take (1 + 1)).map fun it => it.due.val).sum)) :=
  ⟨by decide, (C9_advance_ledger agW itemsW agW2 (by decide)).1 1 (by decide)⟩

theorem C10_apply_statements_repeatable_witness :
    agW.apply_statements = some (itemsW, agW2) ∧
    agW2.apply_statements = some (itemsW, agW2) ∧
    itemsW = itemsW :=
  ⟨by decide, by decide,
    C10_apply_statements_repeatable agW itemsW itemsW agW2 agW2 (by decide) (by decide)⟩

end Royalties
